import Mathlib

/-!
Verification of the pyFDT library (fdt/__init__.py) against its
natural-language specification.

Shallow embedding conventions:
* Python str is modelled as List Char (abbreviated Chars); Python bytes as
  List Nat (one Nat per byte, big-endian multi-byte integers are assembled
  explicitly).
* In-place mutation of the tree is modelled by functions returning the
  updated value; a Python method that both mutates and returns an alias into
  the tree is modelled by a navigation function that applies the mutation at
  the target while rebuilding the tree.
* Python exceptions are modelled with Except Err.
* Unbounded while-loops are modelled with an explicit fuel argument; the
  wrappers instantiate the fuel with a bound that is proved (or, for the
  concrete inputs appearing in theorems, computed) to be sufficient, so the
  fuel-exhaustion branch is never taken on the inputs considered.
* The repository modules fdt/head.py, fdt/item.py and fdt/misc.py are not in
  src/; definitions taken from them are modelled from the spec and marked
  with a doc comment starting with "Modelled from the spec:".
-/

namespace PyFDT

/-- Python strings are modelled as lists of characters. -/
abbrev Chars := List Char

/-- Python byte strings are modelled as lists of byte values. -/
abbrev Bytes := List Nat

/-- Exceptions raised by the library (section 7 of the spec). -/
inductive Err where
  | badMagic
  | unsupportedVersion
  | truncated
  | unknownTag
  | syntaxError
  | unsupported
  | notFound
  | versionMissing
  | noRoot
deriving DecidableEq

/-- Property objects (fdt/item.py, modelled from the spec, section 3):
a discriminated value carrying a name.  Property (empty), PropWords,
PropBytes, PropStrings, PropIncBin. -/
inductive PropItem where
  | empty (name : Chars)
  | words (name : Chars) (data : List Nat)
  | bytes (name : Chars) (data : List Nat)
  | strings (name : Chars) (data : List Chars)
  | incbin (name : Chars) (data : List Nat) (filename : Chars)
deriving DecidableEq

/-- Name of a property. -/
def PropItem.name : PropItem → Chars
  | .empty n => n
  | .words n _ => n
  | .bytes n _ => n
  | .strings n _ => n
  | .incbin n _ _ => n

/-- Deep copy of a property; in the pure model a copy is the value itself. -/
def PropItem.copy (p : PropItem) : PropItem := p

/-- Tree nodes (fdt/item.py, modelled from the spec, section 3): a name, an
ordered list of child nodes and an ordered list of properties.  The Python
parent back-reference is not stored; it is used only for path computation and
parse-stack navigation, which the embedding models explicitly. -/
inductive Node where
  | mk (name : Chars) (nodes : List Node) (props : List PropItem)

/-- Name of a node. -/
def Node.name : Node → Chars
  | .mk n _ _ => n

/-- Child nodes of a node. -/
def Node.nodes : Node → List Node
  | .mk _ ns _ => ns

/-- Properties of a node. -/
def Node.props : Node → List PropItem
  | .mk _ _ ps => ps

/-- Memory reservation entry: the dict with keys address and size. -/
structure Entry where
  address : Int
  size : Int
deriving DecidableEq

/-- DTB header object (fdt/head.py, modelled from the spec, sections 3 and
4.A).  The version (and the fields gated on it) may be absent. -/
structure Header where
  magic : Nat := 0xd00dfeed
  total_size : Nat := 0
  off_dt_struct : Nat := 0
  off_dt_strings : Nat := 0
  off_mem_rsvmap : Nat := 0
  version : Option Nat := none
  last_comp_version : Option Nat := none
  boot_cpuid_phys : Nat := 0
  size_dt_strings : Nat := 0
  size_dt_struct : Nat := 0

/-- Modelled from the spec: header length by version (section 4.A): 40 bytes
for version 1, 48 for version at least 2, 52 for at least 3, 56 for at
least 17.  A header without a version has only the legacy 40-byte prefix. -/
def Header.size (h : Header) : Nat :=
  match h.version with
  | none => 40
  | some v => if 17 ≤ v then 56 else if 3 ≤ v then 52 else if 2 ≤ v then 48 else 40

/-- The FDT object: header, reservation entries and root node.  The root is
Optional because parse_dts assigns None before scanning for node openers. -/
structure FDT where
  header : Header := {}
  entries : List Entry := []
  root_node : Option Node := some (Node.mk ['/'] [] [])

/-- Structure block tags (fdt/head.py, modelled from the spec, section 4.E). -/
def DTB_BEGIN_NODE : Nat := 1

/-- Tag closing a node in the structure block. -/
def DTB_END_NODE : Nat := 2

/-- Tag starting a property record in the structure block. -/
def DTB_PROP : Nat := 3

/-- No-op tag. -/
def DTB_NOP : Nat := 4

/-- Tag ending the structure block. -/
def DTB_END : Nat := 9

/-- Big-endian encoding of a value into a fixed number of bytes
(struct.pack with a big-endian format). -/
def beBytes (width value : Nat) : Bytes :=
  match width with
  | 0 => []
  | w + 1 => (value / 256 ^ w % 256) :: beBytes w (value % 256 ^ w)

/-- Big-endian 32-bit encoding. -/
def be32 (v : Nat) : Bytes := beBytes 4 v

/-- Big-endian 64-bit encoding. -/
def be64 (v : Nat) : Bytes := beBytes 8 v

/-- Payload start of an FDT_PROP record in parse_dtb: after the eight bytes
of len and nameoff, and, when the header version is below 16 and the
property length is at least 8, aligned up to an 8-byte boundary (the Python
expression ((prop_start + 7) and not 0x7), which clears the low three
bits). -/
def propPayloadStart (version index prop_size : Nat) : Nat :=
  let prop_start := index + 8
  if version < 16 ∧ 8 ≤ prop_size then (prop_start + 7) / 8 * 8 else prop_start

/-- Python str.split on a single separator character: s.split(sep).  The
empty string yields one empty field. -/
def splitOnChar (sep : Char) : Chars → List Chars
  | [] => [[]]
  | c :: rest =>
    if c = sep then [] :: splitOnChar sep rest
    else
      match splitOnChar sep rest with
      | g :: gs => (c :: g) :: gs
      | [] => [[c]]

/-- Path splitting as done by FDT.get_node: strip leading slashes
(path.lstrip('/')); an empty remainder means the root, otherwise split on
the slash character. -/
def splitPath (path : Chars) : List Chars :=
  let p := path.dropWhile (fun c => c == '/')
  if p = [] then [] else splitOnChar '/' p

/-- Modelled from the spec: Node.get_subnode of the missing fdt/item.py
returns the first child with matching name, or absent (section 4.D). -/
def Node.get_subnode (n : Node) (nm : Chars) : Option Node :=
  n.nodes.find? (fun c => c.name == nm)

/-- Modelled from the spec: Node.get_property of the missing fdt/item.py
returns the first property with matching name, or absent (section 4.D). -/
def Node.get_property (n : Node) (nm : Chars) : Option PropItem :=
  n.props.find? (fun p => p.name == nm)

/-- Items appended to a node: a child node or a property. -/
inductive Item where
  | node (n : Node)
  | prop (p : PropItem)

/-- Modelled from the spec: Node.append of the missing fdt/item.py adds a
child node or a property at the end of the respective list (section 4.D);
setting the parent back-reference has no counterpart in the pure model. -/
def Node.append (n : Node) (it : Item) : Node :=
  match it with
  | .node c => Node.mk n.name (n.nodes ++ [c]) n.props
  | .prop p => Node.mk n.name n.nodes (n.props ++ [p])

/-- Replacement of the first child carrying a given name; this is how the
embedding reflects Python mutation of the aliased child found by
get_subnode. -/
def replaceFirstNode (nm : Chars) (c : Node) : List Node → List Node
  | [] => []
  | x :: xs => if x.name == nm then c :: xs else x :: replaceFirstNode nm c xs

/-- Rebuilding a node after its first child named nm was mutated. -/
def Node.setFirstChild (n : Node) (nm : Chars) (c : Node) : Node :=
  Node.mk n.name (replaceFirstNode nm c n.nodes) n.props

/-- Navigation core of FDT.get_node: walk the path components, descending
into the first child with a matching name, creating missing nodes when
create holds and failing with NotFound otherwise.  The function f is applied
at the target node, modelling a mutation performed through the alias that
the Python method returns; the pair holds the rebuilt root and the (post-f)
target. -/
def getNodeApply (create : Bool) (f : Node → Node) : Node → List Chars → Except Err (Node × Node)
  | node, [] => .ok (f node, f node)
  | node, nm :: rest =>
    match node.get_subnode nm with
    | some c =>
      match getNodeApply create f c rest with
      | .ok (c2, tgt) => .ok (node.setFirstChild nm c2, tgt)
      | .error e => .error e
    | none =>
      if create then
        match getNodeApply create f (Node.mk nm [] []) rest with
        | .ok (c2, tgt) => .ok (node.append (.node c2), tgt)
        | .error e => .error e
      else .error .notFound

/-- FDT.get_node: resolve a path from the root, optionally creating missing
nodes.  Returns the found node together with the updated tree (the Python
method mutates in place and returns an alias).  A missing root would make
the Python code fail on attribute access, modelled as the noRoot error. -/
def FDT.get_node (t : FDT) (path : Chars) (create : Bool) : Except Err (Node × FDT) :=
  match t.root_node with
  | none => .error .noRoot
  | some r =>
    match getNodeApply create id r (splitPath path) with
    | .ok (r2, tgt) => .ok (tgt, { t with root_node := some r2 })
    | .error e => .error e

/-- FDT.add_item: append a node or property at the node reached by the path,
creating intermediate nodes (get_node with create=True followed by append on
the returned alias).  The error branches cannot fire: creation never fails,
and every call site in the embedded code supplies a tree with a root. -/
def FDT.add_item (t : FDT) (obj : Item) (path : Chars) : FDT :=
  match t.root_node with
  | none => t
  | some r =>
    match getNodeApply true (fun n => n.append obj) r (splitPath path) with
    | .ok (r2, _) => { t with root_node := some r2 }
    | .error _ => t

/-- Read-only path resolution (proof-side companion of get_node with
create=False). -/
def resolve : Node → List Chars → Option Node
  | n, [] => some n
  | n, nm :: rest =>
    match n.get_subnode nm with
    | some c => resolve c rest
    | none => none

/-- Total companion of getNodeApply with create=True: the rebuilt root. -/
def addRoot (f : Node → Node) : Node → List Chars → Node
  | n, [] => f n
  | n, nm :: rest =>
    match n.get_subnode nm with
    | some c => n.setFirstChild nm (addRoot f c rest)
    | none => n.append (.node (addRoot f (Node.mk nm [] []) rest))

/-- Total companion of getNodeApply with create=True: the target node. -/
def addTgt (f : Node → Node) : Node → List Chars → Node
  | n, [] => f n
  | n, nm :: rest =>
    match n.get_subnode nm with
    | some c => addTgt f c rest
    | none => addTgt f (Node.mk nm [] []) rest

mutual

/-- Size of a node: one plus the sizes of all descendants; used as fuel
bound for the loops that traverse a tree. -/
def Node.size : Node → Nat
  | .mk _ kids _ => 1 + Node.sizeList kids

/-- Sum of the sizes of a list of nodes. -/
def Node.sizeList : List Node → Nat
  | [] => 0
  | c :: cs => Node.size c + Node.sizeList cs

end

/-- One step of the reservation-entry merge loop of FDT.merge: scan the
existing entries for the first one whose address equals the incoming
entry's address; on a match, assign the incoming entry's SIZE into the
existing entry's ADDRESS field and stop (this is what the code does);
without a match, append the incoming entry. -/
def mergeEntryOne : List Entry → Entry → List Entry
  | [], ie => [ie]
  | e :: es, ie =>
    if e.address = ie.address then { e with address := ie.size } :: es
    else e :: mergeEntryOne es ie

/-- One step of the property side of Node.merge: overwrite the first
property with a colliding name when replace holds, keep it otherwise,
append a novel property. -/
def mergePropOne (replace : Bool) : List PropItem → PropItem → List PropItem
  | [], p => [p]
  | q :: qs, p =>
    if q.name = p.name then (if replace then p :: qs else q :: qs)
    else q :: mergePropOne replace qs p

mutual

/-- Modelled from the spec: Node.merge of the missing fdt/item.py
(section 4.D), recursive: for each property of the other node, overwrite on
a name collision when replace holds, else keep the existing one, and append
novel ones; for each child of the other node, recurse into the like-named
child or append a clone when absent. -/
def mergeNode (replace : Bool) (self : Node) : Node → Node
  | .mk _ okids oprops =>
    Node.mk self.name (mergeChildren replace self.nodes okids)
      (oprops.foldl (mergePropOne replace) self.props)

/-- Folding the other node's children into the child list. -/
def mergeChildren (replace : Bool) (selfKids : List Node) : List Node → List Node
  | [] => selfKids
  | o :: os => mergeChildren replace (mergeOne replace selfKids o) os

/-- Merging one incoming child: recurse into the first like-named child, or
append. -/
def mergeOne (replace : Bool) : List Node → Node → List Node
  | [], o => [o]
  | s :: ss, o =>
    if s.name = o.name then mergeNode replace s o :: ss
    else s :: mergeOne replace ss o

end

/-- FDT.merge: raise the header version to the other tree's when higher
(adopting the whole other header when this tree has no version), merge the
reservation entries with the loop of mergeEntryOne, and merge the other
root into this root.  A missing root on either side would crash the Python
code (modelled as the noRoot error). -/
def FDT.merge (t other : FDT) (replace : Bool) : Except Err FDT :=
  let h := match t.header.version with
    | none => other.header
    | some sv =>
      match other.header.version with
      | some ov => if sv < ov then { t.header with version := some ov } else t.header
      | none => t.header
  let es := other.entries.foldl mergeEntryOne t.entries
  match t.root_node, other.root_node with
  | some r1, some r2 =>
    .ok { header := h, entries := es, root_node := some (mergeNode replace r1 r2) }
  | _, _ => .error .noRoot

/-- Python whitespace test used by str.split and str.strip. -/
def isSpaceChar (c : Char) : Bool :=
  c == ' ' || c == '\t' || c == '\n' || c == '\r'

/-- Python str.lstrip with a character predicate. -/
def lstripBy (p : Char → Bool) (s : Chars) : Chars := s.dropWhile p

/-- Python str.rstrip with a character predicate. -/
def rstripBy (p : Char → Bool) (s : Chars) : Chars := (s.reverse.dropWhile p).reverse

/-- Python str.strip with a character predicate. -/
def pyStrip (p : Char → Bool) (s : Chars) : Chars := rstripBy p (lstripBy p s)

/-- Whitespace splitting of Python str.split() with no argument: tokens are
the maximal runs of non-whitespace characters, and a string without tokens
(empty or all whitespace) splits into the empty list.  The fuel is the
string length: every emitted token consumes at least one character, so the
fuel can reach zero only on the empty string, whose split is empty
anyway. -/
def pySplitWSF : Nat → Chars → List Chars
  | 0, _ => []
  | fuel + 1, s =>
    let s1 := s.dropWhile isSpaceChar
    if s1 = [] then []
    else
      (s1.takeWhile (fun c => !isSpaceChar c)) ::
        pySplitWSF fuel (s1.dropWhile (fun c => !isSpaceChar c))

/-- Python str.split() with no argument. -/
def pySplitWS (s : Chars) : List Chars := pySplitWSF s.length s

/-- Splitting on a non-empty substring, fuel bounded (Python str.split with
a string argument, used with a two-character separator). -/
def splitOnSubFuel (pat : Chars) : Nat → Chars → List Chars
  | 0, s => [s]
  | fuel + 1, s =>
    match s with
    | [] => [[]]
    | c :: rest =>
      if pat.isPrefixOf (c :: rest) ∧ pat ≠ [] then
        [] :: splitOnSubFuel pat fuel (List.drop (pat.length - 1) rest)
      else
        match splitOnSubFuel pat fuel rest with
        | g :: gs => (c :: g) :: gs
        | [] => [[c]]

/-- Python s.split(pat) for a non-empty pattern. -/
def pySplitSub (s pat : Chars) : List Chars := splitOnSubFuel pat s.length s

/-- Removal of every occurrence of a substring: Python s.replace(pat, ''). -/
def removeSub (s pat : Chars) : Chars := (pySplitSub s pat).flatten

/-- Value of an alphanumeric digit character. -/
def digitVal (c : Char) : Option Nat :=
  let n := c.toNat
  if 48 ≤ n ∧ n ≤ 57 then some (n - 48)
  else if 97 ≤ n ∧ n ≤ 122 then some (n - 87)
  else if 65 ≤ n ∧ n ≤ 90 then some (n - 55)
  else none

/-- Tail of a digit run in a given base, with a single underscore allowed
between digits (the Python int literal grammar); acc is the value of the
digits already read. -/
def digitsU (base : Nat) : Nat → Chars → Option Nat
  | acc, [] => some acc
  | acc, c :: rest =>
    if c = '_' then
      match rest with
      | [] => none
      | c2 :: rest2 =>
        match digitVal c2 with
        | some d => if d < base then digitsU base (base * acc + d) rest2 else none
        | none => none
    else
      match digitVal c with
      | some d => if d < base then digitsU base (base * acc + d) rest else none
      | none => none

/-- Non-empty digit run: the first character must be a digit of the base;
underscores may separate the later digits but may not lead, trail or
double up. -/
def digitRun (base : Nat) : Chars → Option Nat
  | [] => none
  | c :: rest =>
    match digitVal c with
    | some d => if d < base then digitsU base d rest else none
    | none => none

/-- Digit run after a radix mark: Python also allows one underscore
directly after the mark (0x_ff). -/
def prefixedRun (base : Nat) (s : Chars) : Option Nat :=
  match s with
  | '_' :: rest => digitRun base rest
  | _ => digitRun base s

/-- Optional sign of an int literal: whether the value is negated, and the
remaining characters. -/
def signSplit : Chars → (Bool × Chars)
  | '+' :: rest => (false, rest)
  | '-' :: rest => (true, rest)
  | s => (false, s)

/-- Python int(s, base) for base 2, 8, 10 or 16: strip whitespace, allow
one sign, allow the radix mark matching the base, then a non-empty digit
run with underscore separators. -/
def pyIntBase (base : Nat) (s0 : Chars) : Option Int :=
  let s1 := pyStrip isSpaceChar s0
  let sg := signSplit s1
  let core :=
    if base = 16 ∧ ("0x".data.isPrefixOf sg.2 ∨ "0X".data.isPrefixOf sg.2) then
      prefixedRun 16 (sg.2.drop 2)
    else if base = 2 ∧ ("0b".data.isPrefixOf sg.2 ∨ "0B".data.isPrefixOf sg.2) then
      prefixedRun 2 (sg.2.drop 2)
    else if base = 8 ∧ ("0o".data.isPrefixOf sg.2 ∨ "0O".data.isPrefixOf sg.2) then
      prefixedRun 8 (sg.2.drop 2)
    else digitRun base sg.2
  match core with
  | some v => some (if sg.1 then -(v : Int) else (v : Int))
  | none => none

/-- Python int(s, 0): strip whitespace, allow one sign, then the base is
taken from the radix mark; without a mark a bare run of zeros (underscores
allowed) is zero, any other leading zero is an error, and otherwise the
run is decimal. -/
def pyIntAuto (s0 : Chars) : Option Int :=
  let s1 := pyStrip isSpaceChar s0
  let sg := signSplit s1
  let core :=
    if "0x".data.isPrefixOf sg.2 ∨ "0X".data.isPrefixOf sg.2 then
      prefixedRun 16 (sg.2.drop 2)
    else if "0b".data.isPrefixOf sg.2 ∨ "0B".data.isPrefixOf sg.2 then
      prefixedRun 2 (sg.2.drop 2)
    else if "0o".data.isPrefixOf sg.2 ∨ "0O".data.isPrefixOf sg.2 then
      prefixedRun 8 (sg.2.drop 2)
    else
      match digitRun 10 sg.2 with
      | some v => if v = 0 ∨ ¬"0".data.isPrefixOf sg.2 then some v else none
      | none => none
  match core with
  | some v => some (if sg.1 then -(v : Int) else (v : Int))
  | none => none

/-- Reservation-entry phase of parse_dts: scan the statements up to the
first node opener; each /memreserve/ statement must split into exactly three
tokens whose address and size parse with int(x, 0). -/
def entriesPhase : List Chars → Except Err (List Entry)
  | [] => .ok []
  | l :: ls =>
    if (['{'] : Chars).isSuffixOf l then .ok []
    else if "/memreserve/".data.isPrefixOf l then
      match pySplitWS (pyStrip (fun c => c == ';') l) with
      | [_, a, b] =>
        match pyIntAuto a, pyIntAuto b with
        | some x, some y =>
          match entriesPhase ls with
          | .ok es => .ok (⟨x, y⟩ :: es)
          | .error e => .error e
        | _, _ => .error .syntaxError
      | _ => .error .syntaxError
    else entriesPhase ls

/-- Split at the first equals sign (Python split('=', maxsplit=1)),
returning the parts before and after it when present. -/
def splitFirstEq : Chars → Option (Chars × Chars)
  | [] => none
  | c :: rest =>
    if c = '=' then some ([], rest)
    else
      match splitFirstEq rest with
      | some p => some (c :: p.1, p.2)
      | none => none

/-- Token of a word-array cell: radix chosen from the leading characters as
in the source (0x hexadecimal, 0b binary, other leading 0 octal, else
decimal).  Modelled from the spec: a Words property holds u32 cells
(section 4.C), so the append of the missing fdt/item.py rejects a parsed
value outside that range. -/
def parseWordTok (tok : Chars) : Option Nat :=
  let r :=
    if "0x".data.isPrefixOf tok then pyIntBase 16 tok
    else if "0b".data.isPrefixOf tok then pyIntBase 2 tok
    else if "0".data.isPrefixOf tok then pyIntBase 8 tok
    else pyIntBase 10 tok
  match r with
  | some v => if 0 ≤ v ∧ v < 4294967296 then some v.toNat else none
  | none => none

/-- Word-array property value: strip the angle brackets, split on
whitespace, parse every cell. -/
def parseWords (nm v : Chars) : Except Err PropItem :=
  let body := v.filter (fun c => !(c == '<') && !(c == '>'))
  let r := (pySplitWS body).foldl
    (fun acc tok =>
      match acc, parseWordTok tok with
      | some ws, some w => some (ws ++ [w])
      | _, _ => none)
    (some [])
  match r with
  | some ws => .ok (.words nm ws)
  | none => .error .syntaxError

/-- Byte-array property value: strip the square brackets, split on
whitespace, parse every byte as hexadecimal.  Modelled from the spec: a
Bytes property holds u8 values (section 4.C), so the append of the missing
fdt/item.py rejects a parsed value outside that range. -/
def parseBytesV (nm v : Chars) : Except Err PropItem :=
  let body := v.filter (fun c => !(c == '[') && !(c == ']'))
  let r := (pySplitWS body).foldl
    (fun acc tok =>
      match acc, pyIntBase 16 tok with
      | some bs, some b => if 0 ≤ b ∧ b < 256 then some (bs ++ [b.toNat]) else none
      | _, _ => none)
    (some [])
  match r with
  | some bs => .ok (.bytes nm bs)
  | none => .error .syntaxError

/-- String-list property value: split on the quote-comma separator, drop
the quotes, strip whitespace. -/
def parseStringsV (nm v : Chars) : PropItem :=
  .strings nm
    ((pySplitSub v ['"', ',']).map
      (fun p => pyStrip isSpaceChar (p.filter (fun c => !(c == '"')))))

/-- Last path component (os.path.split(p)[1]). -/
def basename (p : Chars) : Chars := (splitOnChar '/' p).getLastD []

/-- Included-binary property value: the filesystem access of the source
(os.path.exists and open/read) is modelled by the fs argument returning the
file bytes, and os.path.join by slash concatenation.  A value with an
explicit offset or length makes the source call .strip() on a list, a
runtime error, modelled as syntaxError. -/
def parseIncbin (fs : Chars → Option (List Nat)) (rd nm v : Chars) :
    Except Err PropItem :=
  let v1 := removeSub (removeSub v ("/incbin/(".data ++ ['"'])) (['"'] ++ ")".data)
  match splitOnChar ',' v1 with
  | [p0] =>
    let path := (if rd = [] then [] else rd ++ ['/']) ++ pyStrip isSpaceChar p0
    match fs path with
    | some data => .ok (.incbin nm data (basename path))
    | none => .error .syntaxError
  | _ => .error .syntaxError

/-- Property statement parsing of parse_dts: no equals sign gives an empty
property named by the whole statement; otherwise the value syntax is chosen
from its leading characters, with /plugin/ and /bits/ rejected as
unsupported. -/
def parsePropLine (fs : Chars → Option (List Nat)) (rd line : Chars) :
    Except Err PropItem :=
  match splitFirstEq line with
  | none => .ok (.empty line)
  | some (n0, v0) =>
    let nm := rstripBy (fun c => c == ' ') n0
    let v := v0.dropWhile (fun c => c == ' ')
    if "<".data.isPrefixOf v then parseWords nm v
    else if "[".data.isPrefixOf v then parseBytesV nm v
    else if "/incbin/".data.isPrefixOf v then parseIncbin fs rd nm v
    else if "/plugin/".data.isPrefixOf v then .error .unsupported
    else if "/bits/".data.isPrefixOf v then .error .unsupported
    else .ok (parseStringsV nm v)

/-- An open node of the parse_dts scanner: its name and the children and
properties collected so far.  The Python code keeps the same data reachable
from curnode through parent links. -/
structure Frame where
  name : Chars
  kids : List Node
  props : List PropItem

/-- Scanner state: the finished root (set when the outermost node is
closed) and the stack of open nodes, innermost first.  An empty stack
corresponds to curnode being None. -/
structure DtsState where
  finishedRoot : Option Node
  stack : List Frame

/-- A closed frame becomes a node. -/
def closeFrame (f : Frame) : Node := Node.mk f.name f.kids f.props

/-- Node-closer handling: curnode = curnode.parent.  Closing the outermost
node installs it as root when no root exists yet (a second top-level tree
is unreachable from the root in the Python code and is dropped). -/
def dtsPop (st : DtsState) : DtsState :=
  match st.stack with
  | [] => st
  | [f] =>
    { finishedRoot :=
        match st.finishedRoot with
        | none => some (closeFrame f)
        | some r => some r,
      stack := [] }
  | f :: g :: gs =>
    { st with stack := { g with kids := g.kids ++ [closeFrame f] } :: gs }

/-- One statement of the node phase of parse_dts: a node opener pushes a
frame named by the first whitespace token; a node closer pops; any other
statement is parsed as a property, which is appended to the current node
when one is open and discarded otherwise (the parse errors are raised
either way). -/
def dtsStep (fs : Chars → Option (List Nat)) (rd : Chars) (st : DtsState)
    (line : Chars) : Except Err DtsState :=
  if (['{'] : Chars).isSuffixOf line then
    .ok { st with stack := ⟨(pySplitWS line).headD [], [], []⟩ :: st.stack }
  else if (['}'] : Chars).isSuffixOf line then
    .ok (dtsPop st)
  else
    match parsePropLine fs rd line with
    | .ok p =>
      .ok (match st.stack with
           | [] => st
           | f :: rest => { st with stack := { f with props := f.props ++ [p] } :: rest })
    | .error e => .error e

/-- Node phase of parse_dts over all statements. -/
def dtsNodePhase (fs : Chars → Option (List Nat)) (rd : Chars) :
    DtsState → List Chars → Except Err DtsState
  | st, [] => .ok st
  | st, l :: ls =>
    match dtsStep fs rd st l with
    | .ok st2 => dtsNodePhase fs rd st2 ls
    | .error e => .error e

/-- Folding the still-open frames from the innermost outwards: each closed
frame becomes the last child of its parent frame. -/
def foldFrames : Frame → List Frame → Node
  | f, [] => closeFrame f
  | f, g :: gs => foldFrames { g with kids := g.kids ++ [closeFrame f] } gs

/-- Root left by the scanner: the finished root, or the partially built
outermost node when the input ended with nodes still open. -/
def dtsFinish : DtsState → Option Node
  | ⟨some r, _⟩ => some r
  | ⟨none, []⟩ => none
  | ⟨none, f :: gs⟩ => some (foldFrames f gs)

/-- Version hints recovered from the raw text (get_version_info of the
missing fdt/misc.py, modelled from the spec, section 4.G item 2). -/
structure VerInfo where
  version : Option Nat := none
  last_comp_version : Option Nat := none
  boot_cpuid_phys : Option Nat := none

/-- Header populated from the version hints at the start of parse_dts (the
comment-stripping and line-splitting normalization lives in the missing
fdt/misc.py; the theorems quantify over every possible statement list). -/
def dtsHeader (ver : VerInfo) : Header :=
  let h0 : Header := {}
  let h1 := match ver.version with
    | some v => { h0 with version := some v }
    | none => h0
  let h2 := match ver.last_comp_version with
    | some v => { h1 with last_comp_version := some v }
    | none => h1
  match ver.boot_cpuid_phys with
  | some v => { h2 with boot_cpuid_phys := v }
  | none => h2

/-- Core of parse_dts over the normalized statement list: the reservation
phase runs first (its error propagates before any node processing), then the
node phase. -/
def parse_dts_lines (fs : Chars → Option (List Nat)) (rd : Chars)
    (ver : VerInfo) (lines : List Chars) : Except Err FDT :=
  match entriesPhase lines with
  | .error e => .error e
  | .ok es =>
    match dtsNodePhase fs rd ⟨none, []⟩ lines with
    | .error e => .error e
    | .ok st => .ok { header := dtsHeader ver, entries := es, root_node := dtsFinish st }

/-- A statement that is a property whose value starts with /plugin/ or
/bits/ (and is not a node opener or closer). -/
def pluginBitsProp (line : Chars) : Bool :=
  !(['{'] : Chars).isSuffixOf line && !(['}'] : Chars).isSuffixOf line &&
    (match splitFirstEq line with
     | some p =>
       "/plugin/".data.isPrefixOf (p.2.dropWhile (fun c => c == ' ')) ||
         "/bits/".data.isPrefixOf (p.2.dropWhile (fun c => c == ' '))
     | none => false)

/-- Python str.replace(pat, rep) for a non-empty pattern: split on the
pattern and join with the replacement (left-to-right, non-overlapping). -/
def pyReplace (s pat rep : Chars) : Chars := List.intercalate rep (pySplitSub s pat)

/-- Path shown by the walk loop for a node: format node.path/node.name, then
collapse triple and double slashes (in that order), as in the source. -/
def joinPath (pp nm : Chars) : Chars :=
  pyReplace (pyReplace (pp ++ ['/'] ++ nm) "///".data "/".data) "//".data "/".data

/-- Walk loop of FDT.walk: push the children of the current node onto the
stack, yield the current (path, node), then pop from the back of the stack.
Node.path of the missing fdt/item.py (modelled from the spec, section 3: the
slash-joined ancestor names from the root) is carried alongside each stacked
node: a stacked child's ancestor path is the path displayed for its parent.
One fuel unit is spent per yielded node, so the size of the subtree is
enough fuel. -/
def walkFuel : Nat → Chars → Node → List (Chars × Node) → List (Chars × Node)
  | 0, _, _, _ => []
  | fuel + 1, pp, node, stack =>
    let cur := joinPath pp node.name
    let stack2 := stack ++ node.nodes.map (fun c => (cur, c))
    match stack2.getLast? with
    | none => [(cur, node)]
    | some pr => (cur, node) :: walkFuel fuel pr.1 pr.2 stack2.dropLast

/-- FDT.walk with the default arguments (path empty, relative false), the
form used by the claims and by diff, paired with the visited node.  The
starting node is the root, whose own modelled path is the empty string. -/
def FDT.walkPairs (t : FDT) : Except Err (List (Chars × Node)) :=
  match t.root_node with
  | none => .error .noRoot
  | some r => .ok (walkFuel (Node.size r) [] r [])

/-- FDT.walk as the source yields it: one (path, subnodes, properties)
triple per visited node. -/
def FDT.walk (t : FDT) : Except Err (List (Chars × List Node × List PropItem)) :=
  (t.walkPairs).map (List.map (fun pr => (pr.1, pr.2.nodes, pr.2.props)))

mutual

/-- Visit sequence actually produced by the walk loop: the node itself,
followed by the visit sequences of its children in reverse sibling order. -/
def visitSeq : Chars → Node → List (Chars × Node)
  | pp, .mk nm kids ps =>
    (joinPath pp nm, Node.mk nm kids ps) :: visitKidsRev (joinPath pp nm) kids

/-- Visit sequences of a child list in reverse order. -/
def visitKidsRev : Chars → List Node → List (Chars × Node)
  | _, [] => []
  | cur, c :: cs => visitKidsRev cur cs ++ visitSeq cur c

end

mutual

/-- Depth-first pre-order visit sequence in sibling order, written from the
words of the spec (walk produces the triples in depth-first pre-order); used
to compare the claimed order with the implemented one. -/
def specPreorder : Chars → Node → List (Chars × Node)
  | pp, .mk nm kids ps =>
    (joinPath pp nm, Node.mk nm kids ps) :: specPreKids (joinPath pp nm) kids

/-- Pre-order visit sequences of a child list in sibling order. -/
def specPreKids : Chars → List Node → List (Chars × Node)
  | _, [] => []
  | cur, c :: cs => specPreorder cur c ++ specPreKids cur cs

end

mutual

/-- All nodes of a subtree, the node itself first. -/
def allNodes : Node → List Node
  | .mk nm kids ps => Node.mk nm kids ps :: allNodesList kids

/-- All nodes of a list of subtrees. -/
def allNodesList : List Node → List Node
  | [] => []
  | c :: cs => allNodes c ++ allNodesList cs

end

/-- Total size of the nodes held in a walk stack. -/
def stackSizes (stack : List (Chars × Node)) : Nat :=
  (stack.map (fun pr => Node.size pr.2)).sum

/-- Visit sequences contributed by a walk stack: popped from the back, so
the reverse of the stack order. -/
def stackVisits (stack : List (Chars × Node)) : List (Chars × Node) :=
  (stack.reverse.map (fun pr => visitSeq pr.1 pr.2)).flatten

/-- Bounded read of n bytes at a position (struct.unpack_from raises on an
out-of-range read, modelled as the truncated error). -/
def readBytes (data : Bytes) (pos n : Nat) : Except Err Bytes :=
  if pos + n ≤ data.length then .ok ((data.drop pos).take n) else .error .truncated

/-- Big-endian integer read. -/
def readBE (data : Bytes) (pos n : Nat) : Except Err Nat :=
  (readBytes data pos n).map (fun bs => bs.foldl (fun acc b => acc * 256 + b) 0)

/-- Modelled from the spec: Header.parse of the missing fdt/head.py
(section 4.A): decode the big-endian fields in their declared order at the
start of the given data, check the magic, reject versions outside 2..17,
and read the version-gated extension words. -/
def Header.parse (data : Bytes) : Except Err Header := do
  let magic ← readBE data 0 4
  let total_size ← readBE data 4 4
  let off_dt_struct ← readBE data 8 4
  let off_dt_strings ← readBE data 12 4
  let off_mem_rsvmap ← readBE data 16 4
  let version ← readBE data 20 4
  let last_comp_version ← readBE data 24 4
  if magic ≠ 0xd00dfeed then throw .badMagic
  else if version < 2 ∨ 17 < version then throw .unsupportedVersion
  else do
    let boot ← if 2 ≤ version then readBE data 28 4 else pure 0
    let szstr ← if 3 ≤ version then readBE data 32 4 else pure 0
    let szstruct ← if 17 ≤ version then readBE data 36 4 else pure 0
    pure { magic := magic, total_size := total_size, off_dt_struct := off_dt_struct,
           off_dt_strings := off_dt_strings, off_mem_rsvmap := off_mem_rsvmap,
           version := some version, last_comp_version := some last_comp_version,
           boot_cpuid_phys := boot, size_dt_strings := szstr, size_dt_struct := szstruct }

/-- Modelled from the spec: extract_string of the missing fdt/misc.py reads
the NUL-terminated ASCII string at an absolute position. -/
def extract_string (data : Bytes) (pos : Nat) : Chars :=
  ((data.drop pos).takeWhile (fun b => b ≠ 0)).map Char.ofNat

/-- Reservation-entry loop of parse_dtb: read big-endian (u64, u64) pairs at
offset + index until the zero terminator pair.  Every iteration consumes 16
readable bytes, so the data length bounds the iterations and the fuel branch
is unreachable for the wrapper's fuel. -/
def parseEntriesFuel (data : Bytes) (offset : Nat) : Nat → Nat → Except Err (List Entry)
  | 0, _ => .error .truncated
  | fuel + 1, index => do
    let addr ← readBE data (offset + index) 8
    let size ← readBE data (offset + index + 8) 8
    if addr = 0 ∧ size = 0 then pure []
    else do
      let rest ← parseEntriesFuel data offset fuel (index + 16)
      pure (⟨addr, size⟩ :: rest)

/-- Printable-ASCII test of the spec's property-type heuristic. -/
def printableByte (b : Nat) : Bool := 32 ≤ b && b ≤ 126

/-- Modelled from the spec: the payload looks like a NUL-terminated list of
printable strings (section 4.C). -/
def stringsLike (raw : Bytes) : Bool :=
  raw ≠ [] && raw.getLast? == some 0 && raw.all (fun b => printableByte b || b == 0)

/-- Big-endian 32-bit cells of a payload whose length is a multiple of 4. -/
def bytesToWords : Bytes → List Nat
  | b0 :: b1 :: b2 :: b3 :: rest => (((b0 * 256 + b1) * 256 + b2) * 256 + b3) :: bytesToWords rest
  | _ => []

/-- Byte-level split on NUL. -/
def splitOnZero : Bytes → List Bytes
  | [] => [[]]
  | b :: rest =>
    if b = 0 then [] :: splitOnZero rest
    else
      match splitOnZero rest with
      | g :: gs => (b :: g) :: gs
      | [] => [[b]]

/-- Modelled from the spec: new_property of the missing fdt/item.py recovers
the property kind from the raw payload by the documented heuristic
(section 4.C): empty payload, else words when the length is a positive
multiple of 4 and the payload does not look like strings, else strings when
it does, else bytes. -/
def new_property (nm : Chars) (raw : Bytes) : PropItem :=
  if raw.length = 0 then .empty nm
  else if raw.length % 4 = 0 ∧ stringsLike raw = false then .words nm (bytesToWords raw)
  else if stringsLike raw then
    .strings nm ((splitOnZero raw.dropLast).map (fun bs => bs.map Char.ofNat))
  else .bytes nm raw

/-- Structure-block loop of parse_dtb.  The index is relative to the blob
start; data reads add the offset, but the property NAME lookup uses the
absolute off_dt_strings + nameoff, exactly as the source does.  Node nesting
reuses the frame stack of the DTS scanner (the Python code uses the same
current-node/parent walking in both parsers).  The index grows by at least
four each iteration, so the data length bounds the iterations. -/
def parseStructFuel (data : Bytes) (offset : Nat) (hdr : Header) :
    Nat → Nat → DtsState → Except Err DtsState
  | 0, _, _ => .error .truncated
  | fuel + 1, index, st =>
    if data.length < offset + index + 4 then .error .truncated
    else do
      let tag ← readBE data (offset + index) 4
      let index1 := index + 4
      if tag = DTB_BEGIN_NODE then
        let node_name := extract_string data (offset + index1)
        let index2 := (index1 + node_name.length + 4) / 4 * 4
        let nm := if node_name = [] then ['/'] else node_name
        parseStructFuel data offset hdr fuel index2 { st with stack := ⟨nm, [], []⟩ :: st.stack }
      else if tag = DTB_END_NODE then
        parseStructFuel data offset hdr fuel index1 (dtsPop st)
      else if tag = DTB_PROP then do
        let prop_size ← readBE data (offset + index1) 4
        let nameoff ← readBE data (offset + index1 + 4) 4
        let prop_start := propPayloadStart (hdr.version.getD 0) index1 prop_size
        let prop_name := extract_string data (hdr.off_dt_strings + nameoff)
        let raw := (data.drop (offset + prop_start)).take prop_size
        let index2 := (prop_start + prop_size + 3) / 4 * 4
        let st2 := match st.stack with
          | [] => st
          | f :: rest =>
            { st with stack := { f with props := f.props ++ [new_property prop_name raw] } :: rest }
        parseStructFuel data offset hdr fuel index2 st2
      else if tag = DTB_END then pure st
      else .error .unknownTag

/-- parse_dtb: parse the header (the source passes no offset to
Header.parse, so the header is always read at position 0), then the
reservation entries at offset + off_mem_rsvmap, then the structure block at
offset + off_dt_struct. -/
def parse_dtb (data : Bytes) (offset : Nat) : Except Err FDT := do
  let hdr ← Header.parse data
  let es ← parseEntriesFuel data offset (data.length + 1) hdr.off_mem_rsvmap
  let st ← parseStructFuel data offset hdr (data.length + 1) hdr.off_dt_struct ⟨none, []⟩
  pure { header := hdr, entries := es, root_node := dtsFinish st }

/-- Minimal valid version-17 blob used to exhibit the offset handling:
a 56-byte header, the terminator-only reservation block, and a structure
block holding one unnamed root node. -/
def demoBlob : Bytes :=
  be32 0xd00dfeed ++ be32 88 ++ be32 72 ++ be32 88 ++ be32 56 ++ be32 17 ++
    be32 16 ++ be32 0 ++ be32 0 ++ be32 16 ++ List.replicate 16 0 ++
    be64 0 ++ be64 0 ++ be32 DTB_BEGIN_NODE ++ be32 0 ++ be32 DTB_END_NODE ++ be32 DTB_END

/-- Suppressed-exception node lookup used by diff: try get_node, on any
exception use None. -/
def fdtGetOpt (t : FDT) (path : Chars) : Option Node :=
  match t.get_node path false with
  | .ok p => some p.1
  | .error _ => none

/-- Header chosen for the same-tree of diff: fdt1's header when its version
is the strictly higher of two present versions, fdt2's header when both are
present otherwise, and fdt1's header when either version is absent. -/
def diffSameHeader (h1 h2 : Header) : Header :=
  match h1.version, h2.version with
  | some v1, some v2 => if v2 < v1 then h1 else h2
  | _, _ => h1

/-- Reservation entries present in both trees (first loop of diff): when
both lists are non-empty, every entry of the first list with an
address/size match in the second, in first-list order. -/
def diffSameEntries (es1 es2 : List Entry) : List Entry :=
  if es1 ≠ [] ∧ es2 ≠ [] then
    es1.filter (fun a => es2.any (fun b => a.address == b.address && a.size == b.size))
  else []

/-- Reservation entries of one tree with no address/size match in the
same-list. -/
def diffOnlyEntries (es same : List Entry) : List Entry :=
  es.filter (fun a => !(same.any (fun s => a.address == s.address && a.size == s.size)))

/-- First walk loop of diff, child classification for one child nb of the
visited node: a child whose name also exists under the peer node goes to
fdt_same as a bare node, the others go to fdt_a; no peer node sends
everything to fdt_a. -/
def diff1KidStep (rnode : Option Node) (path : Chars) (acc : FDT × FDT) (nb : Node) : FDT × FDT :=
  match rnode with
  | some rn =>
    if (rn.get_subnode nb.name).isSome then
      (acc.1.add_item (.node (Node.mk nb.name [] [])) path, acc.2)
    else (acc.1, acc.2.add_item (.node (Node.mk nb.name [] [])) path)
  | none => (acc.1, acc.2.add_item (.node (Node.mk nb.name [] [])) path)

/-- First walk loop of diff, property classification for one property pa of
the visited node: a property structurally equal in the peer node goes to
fdt_same, the others to fdt_a. -/
def diff1PropStep (rnode : Option Node) (path : Chars) (acc : FDT × FDT) (pa : PropItem) : FDT × FDT :=
  match rnode with
  | some rn =>
    match rn.get_property pa.name with
    | some q =>
      if pa = q then (acc.1.add_item (.prop pa.copy) path, acc.2)
      else (acc.1, acc.2.add_item (.prop pa.copy) path)
    | none => (acc.1, acc.2.add_item (.prop pa.copy) path)
  | none => (acc.1, acc.2.add_item (.prop pa.copy) path)

/-- Body of the first walk loop of diff, threading (fdt_same, fdt_a): for
each visited node of fdt1, classify its children by name presence in the
peer node of fdt2 and its properties by structural equality. -/
def diffStep1 (fdt2 : FDT) (st : FDT × FDT) (v : Chars × Node) : FDT × FDT :=
  let rnode := fdtGetOpt fdt2 v.1
  v.2.props.foldl (diff1PropStep rnode v.1)
    (v.2.nodes.foldl (diff1KidStep rnode v.1) st)

/-- Second walk loop of diff, one child of the visited node of fdt2: a child
name absent from the finished same-tree is added to fdt_b. -/
def diff2KidStep (rnode : Option Node) (path : Chars) (acc : FDT) (nb : Node) : FDT :=
  match rnode with
  | some rn =>
    if (rn.get_subnode nb.name).isSome then acc
    else acc.add_item (.node (Node.mk nb.name [] [])) path
  | none => acc.add_item (.node (Node.mk nb.name [] [])) path

/-- Second walk loop of diff, one property of the visited node of fdt2: a
property not structurally present in the same-tree is added to fdt_b. -/
def diff2PropStep (rnode : Option Node) (path : Chars) (acc : FDT) (pb : PropItem) : FDT :=
  match rnode with
  | some rn =>
    match rn.get_property pb.name with
    | some q => if pb ≠ q then acc.add_item (.prop pb.copy) path else acc
    | none => acc.add_item (.prop pb.copy) path
  | none => acc.add_item (.prop pb.copy) path

/-- Body of the second walk loop of diff, threading fdt_b: for each visited
node of fdt2, add what is missing from the finished same-tree. -/
def diffStep2 (fdt_same : FDT) (st : FDT) (v : Chars × Node) : FDT :=
  let rnode := fdtGetOpt fdt_same v.1
  v.2.props.foldl (diff2PropStep rnode v.1)
    (v.2.nodes.foldl (diff2KidStep rnode v.1) st)

/-- diff of two trees: three fresh trees (same, only-in-1, only-in-2), the
reservation comparisons, then the two walk loops.  A tree without a root
makes the Python generator crash on attribute access, modelled as an
error. -/
def diff (fdt1 fdt2 : FDT) : Except Err (FDT × FDT × FDT) := do
  let sameE := diffSameEntries fdt1.entries fdt2.entries
  let fdt_same1 : FDT :=
    { header := diffSameHeader fdt1.header fdt2.header, entries := sameE }
  let fdt_a1 : FDT :=
    { header := fdt1.header, entries := diffOnlyEntries fdt1.entries sameE }
  let fdt_b1 : FDT :=
    { header := fdt2.header, entries := diffOnlyEntries fdt2.entries sameE }
  let w1 ← fdt1.walkPairs
  let sa := w1.foldl (diffStep1 fdt2) (fdt_same1, fdt_a1)
  let w2 ← fdt2.walkPairs
  let b := w2.foldl (diffStep2 sa.1) fdt_b1
  pure (sa.1, sa.2, b)

/-- Well-formedness used by the amended C4: within every node the child
names are distinct, the property names are distinct, and every child name
is non-empty without a slash (so that the path strings produced by walk
resolve unambiguously). -/
inductive NodeWF : Node → Prop where
  | mk (nm : Chars) (kids : List Node) (props : List PropItem) :
      (kids.map Node.name).Nodup →
      (props.map PropItem.name).Nodup →
      (∀ c ∈ kids, c.name ≠ [] ∧ '/' ∉ c.name) →
      (∀ c ∈ kids, NodeWF c) →
      NodeWF (Node.mk nm kids props)

/-- Path string of a non-root node from its chain of names below the
root. -/
def pathStr (q : List Chars) : Chars := (q.map (fun nm => '/' :: nm)).flatten

/-- Path displayed by walk for the node whose name chain below the root is
q (the root itself displays a single slash). -/
def dispPath (q : List Chars) : Chars :=
  match q with
  | [] => ['/']
  | _ => pathStr q

/-- Update at the end of an existing path: apply f to the node reached by
descending into the first child of each name (proof companion of the
create navigation when the path resolves). -/
def updAt (f : Node → Node) : Node → List Chars → Node
  | n, [] => f n
  | n, nm :: rest =>
    match n.get_subnode nm with
    | some c => n.setFirstChild nm (updAt f c rest)
    | none => n

/-- Name that is safe inside a path: non-empty and without a slash. -/
def wfName (nm : Chars) : Prop := nm ≠ [] ∧ '/' ∉ nm

/-- All names of a chain are safe. -/
def wfNames (q : List Chars) : Prop := ∀ x ∈ q, wfName x

/-- Adjacent characters that are not both slashes (no double slash). -/
def slashR (a b : Char) : Prop := ¬(a = '/' ∧ b = '/')

/-- Bare copy of a node as diff creates it: same name, no children, no
properties. -/
def stubOf (n : Node) : Node := Node.mk n.name [] []

-- ######################################################################
-- Theorems
-- ######################################################################

theorem find?_cons_pos (p : Node → Bool) (x : Node) (xs : List Node)
    (h : p x = true) : (x :: xs).find? p = some x := by
  rw [List.find?_cons, h]

theorem find?_cons_neg (p : Node → Bool) (x : Node) (xs : List Node)
    (h : p x = false) : (x :: xs).find? p = xs.find? p := by
  rw [List.find?_cons, h]

theorem replaceFirstNode_self {nm : Chars} {l : List Node} {c : Node}
    (h : l.find? (fun x => x.name == nm) = some c) : replaceFirstNode nm c l = l := by
  induction l with
  | nil => simp at h
  | cons x xs ih =>
    unfold replaceFirstNode
    cases hx : (x.name == nm) with
    | true =>
      rw [find?_cons_pos _ _ _ hx] at h
      simp at h
      simp [hx, h]
    | false =>
      rw [find?_cons_neg _ _ _ hx] at h
      simp [hx, ih h]

theorem find?_replaceFirstNode {nm : Chars} {l : List Node} {c x : Node}
    (h : l.find? (fun y => y.name == nm) = some c) (hx : x.name = c.name) :
    (replaceFirstNode nm x l).find? (fun y => y.name == nm) = some x := by
  induction l with
  | nil => simp at h
  | cons y ys ih =>
    unfold replaceFirstNode
    cases hy : (y.name == nm) with
    | true =>
      rw [find?_cons_pos _ _ _ hy] at h
      simp at h
      have hxnm : (x.name == nm) = true := by
        rw [hx, ← h]; exact hy
      simp only [hy, if_true]
      rw [find?_cons_pos _ _ _ hxnm]
    | false =>
      rw [find?_cons_neg _ _ _ hy] at h
      simp only [hy, Bool.false_eq_true, if_false]
      rw [find?_cons_neg _ _ _ hy]
      exact ih h

theorem find?_append_right {p : Node → Bool} {l₁ l₂ : List Node}
    (h : l₁.find? p = none) : (l₁ ++ l₂).find? p = l₂.find? p := by
  induction l₁ with
  | nil => rfl
  | cons x xs ih =>
    cases hx : p x with
    | true => rw [find?_cons_pos _ _ _ hx] at h; simp at h
    | false =>
      rw [find?_cons_neg _ _ _ hx] at h
      rw [List.cons_append, find?_cons_neg _ _ _ hx]
      exact ih h

theorem get_subnode_setFirstChild {n : Node} {nm : Chars} {c x : Node}
    (h : n.get_subnode nm = some c) (hx : x.name = c.name) :
    (n.setFirstChild nm x).get_subnode nm = some x := by
  cases n with
  | mk nm0 ns ps =>
    unfold Node.get_subnode Node.setFirstChild at *
    simp only [Node.nodes] at *
    exact find?_replaceFirstNode h hx

theorem get_subnode_append_node {n : Node} {nm : Chars} {c : Node}
    (h : n.get_subnode nm = none) (hc : c.name = nm) :
    (n.append (.node c)).get_subnode nm = some c := by
  cases n with
  | mk nm0 ns ps =>
    unfold Node.get_subnode Node.append at *
    simp only [Node.nodes] at *
    rw [find?_append_right h]
    rw [find?_cons_pos _ _ _ (by simp [hc])]

theorem getNodeApply_false_eq (n : Node) (names : List Chars) :
    getNodeApply false id n names =
      (match resolve n names with
       | some m => .ok (n, m)
       | none => .error .notFound) := by
  induction names generalizing n with
  | nil => rfl
  | cons nm rest ih =>
    unfold getNodeApply resolve
    cases hsub : n.get_subnode nm with
    | none => simp
    | some c =>
      simp only []
      rw [ih c]
      cases hres : resolve c rest with
      | none => simp
      | some m =>
        simp only []
        have : n.setFirstChild nm c = n := by
          unfold Node.setFirstChild
          rw [replaceFirstNode_self hsub]
          cases n; rfl
        rw [this]

theorem getNodeApply_true_eq (f : Node → Node) (n : Node) (names : List Chars) :
    getNodeApply true f n names = .ok (addRoot f n names, addTgt f n names) := by
  induction names generalizing n with
  | nil => rfl
  | cons nm rest ih =>
    unfold getNodeApply addRoot addTgt
    cases hsub : n.get_subnode nm with
    | some c => simp only [ih]
    | none => simp only [ih, if_true]

theorem addRoot_name (f : Node → Node) (hf : ∀ m, (f m).name = m.name)
    (n : Node) (names : List Chars) : (addRoot f n names).name = n.name := by
  cases names with
  | nil => exact hf n
  | cons nm rest =>
    unfold addRoot
    cases hsub : n.get_subnode nm with
    | some c => cases n; rfl
    | none => cases n; rfl

theorem resolve_addRoot (f : Node → Node) (hf : ∀ m, (f m).name = m.name)
    (n : Node) (names : List Chars) :
    resolve (addRoot f n names) names = some (addTgt f n names) := by
  induction names generalizing n with
  | nil => rfl
  | cons nm rest ih =>
    unfold addRoot addTgt resolve
    cases hsub : n.get_subnode nm with
    | some c =>
      simp only []
      rw [get_subnode_setFirstChild hsub (addRoot_name f hf c rest)]
      exact ih c
    | none =>
      simp only []
      rw [get_subnode_append_node hsub (addRoot_name f hf (Node.mk nm [] []) rest)]
      exact ih (Node.mk nm [] [])

theorem resolve_addRoot_take (f : Node → Node) (hf : ∀ m, (f m).name = m.name)
    (n : Node) (names : List Chars) (k : Nat) :
    (resolve (addRoot f n names) (names.take k)).isSome = true := by
  induction names generalizing n k with
  | nil => cases k <;> simp [resolve]
  | cons nm rest ih =>
    cases k with
    | zero => simp [resolve]
    | succ k =>
      rw [List.take_succ_cons]
      unfold addRoot resolve
      cases hsub : n.get_subnode nm with
      | some c =>
        simp only []
        rw [get_subnode_setFirstChild hsub (addRoot_name f hf c rest)]
        exact ih c k
      | none =>
        simp only []
        rw [get_subnode_append_node hsub (addRoot_name f hf (Node.mk nm [] []) rest)]
        exact ih (Node.mk nm [] []) k

theorem FDT.get_node_some {t : FDT} {r : Node} (h : t.root_node = some r)
    (path : Chars) (create : Bool) :
    t.get_node path create =
      (match getNodeApply create id r (splitPath path) with
       | .ok (r2, tgt) => .ok (tgt, { t with root_node := some r2 })
       | .error e => .error e) := by
  unfold FDT.get_node
  rw [h]

/-- Claim C5: on a tree whose path does not name an existing node,
get_node with create=False fails with NotFound, and get_node with
create=True succeeds, creating every missing intermediate node along the
path (every prefix of the path resolves in the updated tree) and returning
the final node (resolving the same path again finds exactly the returned
node and changes nothing further). -/
theorem C5_get_node_create (t : FDT) (path : Chars)
    (h : t.get_node path false = .error .notFound) :
    ∃ n t2, t.get_node path true = .ok (n, t2) ∧
      t2.get_node path false = .ok (n, t2) ∧
      ∃ r2, t2.root_node = some r2 ∧
        ∀ k, (resolve r2 ((splitPath path).take k)).isSome = true := by
  cases hroot : t.root_node with
  | none =>
    exfalso
    unfold FDT.get_node at h
    rw [hroot] at h
    simp at h
  | some r =>
    refine ⟨addTgt id r (splitPath path),
      { t with root_node := some (addRoot id r (splitPath path)) }, ?_, ?_, ?_⟩
    · rw [FDT.get_node_some hroot, getNodeApply_true_eq]
    · rw [FDT.get_node_some rfl, getNodeApply_false_eq,
        resolve_addRoot id (fun _ => rfl) r (splitPath path)]
    · exact ⟨addRoot id r (splitPath path), rfl,
        fun k => resolve_addRoot_take id (fun _ => rfl) r (splitPath path) k⟩

/-- Witness for C5: in a fresh tree the path a/b does not exist; creating it
succeeds with both intermediate nodes present afterwards. -/
theorem C5_get_node_create_witness :
    ∃ n t2, FDT.get_node {} ['a', '/', 'b'] true = .ok (n, t2) ∧
      t2.get_node ['a', '/', 'b'] false = .ok (n, t2) ∧
      ∃ r2, t2.root_node = some r2 ∧
        ∀ k, (resolve r2 ((splitPath ['a', '/', 'b']).take k)).isSome = true :=
  C5_get_node_create {} ['a', '/', 'b'] (by rfl)

/-- Claim C3: for a header version below 16, parse_dtb aligns the payload
start of an FDT_PROP whose length is at least 8 up to an 8-byte boundary
(the least multiple of 8 at or after the end of the len/nameoff pair), and
for version 16 or greater it performs no extra alignment: the payload starts
immediately after the len/nameoff pair. -/
theorem C3_pre_v16_payload_alignment (version index prop_size : Nat) :
    (version < 16 → 8 ≤ prop_size →
      propPayloadStart version index prop_size % 8 = 0 ∧
      index + 8 ≤ propPayloadStart version index prop_size ∧
      propPayloadStart version index prop_size < index + 16) ∧
    (16 ≤ version → propPayloadStart version index prop_size = index + 8) := by
  unfold propPayloadStart
  constructor
  · intro hv hs
    rw [if_pos ⟨hv, hs⟩]
    omega
  · intro hv
    rw [if_neg (by omega)]

/-- Witness for C3 at a concrete input: version 15 with an 8-byte property
at index 100 is aligned into the window, version 16 is not moved. -/
theorem C3_pre_v16_payload_alignment_witness :
    (propPayloadStart 15 100 8 % 8 = 0 ∧ 100 + 8 ≤ propPayloadStart 15 100 8 ∧
      propPayloadStart 15 100 8 < 100 + 16) ∧
    propPayloadStart 16 100 8 = 100 + 8 :=
  ⟨(C3_pre_v16_payload_alignment 15 100 8).1 (by decide) (by decide),
   (C3_pre_v16_payload_alignment 16 100 8).2 (by decide)⟩

/-- Claim C1 is contradicted by the code (code bug): when an entry of B
shares its address with an entry of A, FDT.merge does not leave A's entry
unchanged; the loop assigns the incoming entry's size into the existing
entry's address field.  At A.entries = [(address 1, size 2)] and
B.entries = [(address 1, size 5)] the merged reservation list is
[(address 5, size 2)] instead of the claimed [(address 1, size 2)]. -/
theorem C1_merge_reservation_overwrite :
    (FDT.merge { entries := [⟨1, 2⟩] } { entries := [⟨1, 5⟩] } true).map
      (fun t => t.entries) = .ok [⟨5, 2⟩] := by
  simp [FDT.merge, mergeEntryOne, mergeNode, mergeChildren]
  rfl

theorem dtsNodePhase_cons (fs : Chars → Option (List Nat)) (rd : Chars)
    (st : DtsState) (l : Chars) (ls : List Chars) :
    dtsNodePhase fs rd st (l :: ls) =
      (match dtsStep fs rd st l with
       | .ok st2 => dtsNodePhase fs rd st2 ls
       | .error e => .error e) := rfl

theorem dtsNodePhase_append (fs : Chars → Option (List Nat)) (rd : Chars)
    (st : DtsState) (l1 l2 : List Chars) :
    dtsNodePhase fs rd st (l1 ++ l2) =
      (match dtsNodePhase fs rd st l1 with
       | .ok st2 => dtsNodePhase fs rd st2 l2
       | .error e => .error e) := by
  induction l1 generalizing st with
  | nil => rfl
  | cons l ls ih =>
    rw [List.cons_append, dtsNodePhase_cons, dtsNodePhase_cons]
    cases hs : dtsStep fs rd st l with
    | ok st2 => exact ih st2
    | error e => rfl

theorem dtsStep_plugin (fs : Chars → Option (List Nat)) (rd : Chars)
    (st : DtsState) (line : Chars) (h : pluginBitsProp line = true) :
    dtsStep fs rd st line = .error .unsupported := by
  unfold pluginBitsProp at h
  unfold dtsStep
  cases hop : (['{'] : Chars).isSuffixOf line with
  | true => rw [hop] at h; simp at h
  | false =>
    rw [hop] at h
    cases hcl : (['}'] : Chars).isSuffixOf line with
    | true => rw [hcl] at h; simp at h
    | false =>
      rw [hcl] at h
      simp only [Bool.not_false, Bool.true_and] at h
      simp only [hop, hcl, Bool.false_eq_true, if_false]
      cases hsp : splitFirstEq line with
      | none => rw [hsp] at h; simp at h
      | some p =>
        rw [hsp] at h
        replace h : ("/plugin/".data.isPrefixOf (p.2.dropWhile (fun c => c == ' ')) ||
            "/bits/".data.isPrefixOf (p.2.dropWhile (fun c => c == ' '))) = true := h
        unfold parsePropLine
        rw [hsp]
        cases hor : "/plugin/".data.isPrefixOf (p.2.dropWhile (fun c => c == ' ')) with
        | true =>
          obtain ⟨t, ht⟩ := List.isPrefixOf_iff_prefix.mp hor
          simp only []
          rw [← ht]
          simp [List.isPrefixOf]
        | false =>
          rw [hor] at h
          simp only [Bool.false_or] at h
          obtain ⟨t, ht⟩ := List.isPrefixOf_iff_prefix.mp h
          simp only []
          rw [← ht]
          simp [List.isPrefixOf]

/-- Claim C8 as stated is false on the code: an input whose property
statement has a /plugin/ value still fails, but with the error of an
earlier malformed statement rather than Unsupported.  Here a two-token
/memreserve/ statement raises first. -/
theorem C8_counterexample_earlier_error :
    pluginBitsProp "x = /plugin/".data = true ∧
    parse_dts_lines (fun _ => none) [] {}
      ["/memreserve/ 0x1".data, "x = /plugin/".data] = .error .syntaxError :=
  ⟨rfl, rfl⟩

theorem parse_dts_lines_entries_error {lines : List Chars} {e : Err}
    (fs : Chars → Option (List Nat)) (rd : Chars) (ver : VerInfo)
    (he : entriesPhase lines = .error e) :
    parse_dts_lines fs rd ver lines = .error e := by
  unfold parse_dts_lines
  rw [he]

theorem parse_dts_lines_node_error {lines : List Chars} {es : List Entry} {e : Err}
    (fs : Chars → Option (List Nat)) (rd : Chars) (ver : VerInfo)
    (he : entriesPhase lines = .ok es)
    (hp : dtsNodePhase fs rd ⟨none, []⟩ lines = .error e) :
    parse_dts_lines fs rd ver lines = .error e := by
  unfold parse_dts_lines
  rw [he, hp]

theorem parse_dts_lines_ok {lines : List Chars} {es : List Entry} {st : DtsState}
    (fs : Chars → Option (List Nat)) (rd : Chars) (ver : VerInfo)
    (he : entriesPhase lines = .ok es)
    (hp : dtsNodePhase fs rd ⟨none, []⟩ lines = .ok st) :
    parse_dts_lines fs rd ver lines =
      .ok { header := dtsHeader ver, entries := es, root_node := dtsFinish st } := by
  unfold parse_dts_lines
  rw [he, hp]

theorem dtsNodePhase_bad_tail (fs : Chars → Option (List Nat)) (rd : Chars)
    (pre post : List Chars) (bad : Chars) (hbad : pluginBitsProp bad = true) :
    ∀ st2, dtsNodePhase fs rd st2 (pre ++ bad :: post) =
      (match dtsNodePhase fs rd st2 pre with
       | .ok _st3 => .error .unsupported
       | .error e => .error e) := by
  intro st2
  rw [dtsNodePhase_append]
  cases hp : dtsNodePhase fs rd st2 pre with
  | error e => rfl
  | ok st3 =>
    show dtsNodePhase fs rd st3 (bad :: post) = _
    rw [dtsNodePhase_cons, dtsStep_plugin fs rd st3 bad hbad]

/-- Claim C8, amended: an input containing a property statement whose value
starts with /plugin/ or /bits/ never yields a tree, and when the statements
processed before the offending one raise nothing (the reservation phase
succeeds and the node phase accepts the preceding statements), parse_dts
fails with Unsupported. -/
theorem C8_plugin_bits_unsupported (fs : Chars → Option (List Nat)) (rd : Chars)
    (ver : VerInfo) (pre post : List Chars) (bad : Chars)
    (hbad : pluginBitsProp bad = true) :
    (∀ t, parse_dts_lines fs rd ver (pre ++ bad :: post) ≠ .ok t) ∧
    (∀ es st, entriesPhase (pre ++ bad :: post) = .ok es →
      dtsNodePhase fs rd ⟨none, []⟩ pre = .ok st →
      parse_dts_lines fs rd ver (pre ++ bad :: post) = .error .unsupported) := by
  have hkey : ∀ es st, entriesPhase (pre ++ bad :: post) = .ok es →
      dtsNodePhase fs rd ⟨none, []⟩ pre = .ok st →
      parse_dts_lines fs rd ver (pre ++ bad :: post) = .error .unsupported := by
    intro es st he hp
    have hnode : dtsNodePhase fs rd ⟨none, []⟩ (pre ++ bad :: post) =
        .error .unsupported := by
      rw [dtsNodePhase_bad_tail fs rd pre post bad hbad, hp]
    exact parse_dts_lines_node_error fs rd ver he hnode
  refine ⟨?_, hkey⟩
  intro t hok
  cases he : entriesPhase (pre ++ bad :: post) with
  | error e =>
    rw [parse_dts_lines_entries_error fs rd ver he] at hok
    simp at hok
  | ok es =>
    cases hp : dtsNodePhase fs rd ⟨none, []⟩ pre with
    | error e =>
      have hnode : dtsNodePhase fs rd ⟨none, []⟩ (pre ++ bad :: post) = .error e := by
        rw [dtsNodePhase_bad_tail fs rd pre post bad hbad, hp]
      rw [parse_dts_lines_node_error fs rd ver he hnode] at hok
      simp at hok
    | ok st =>
      rw [hkey es st he hp] at hok
      simp at hok

/-- Witness for the amended C8 at a concrete input: a well-formed
/memreserve/ statement and a single-cell word property followed by a
/plugin/ property fail with Unsupported and never yield a tree. -/
theorem C8_plugin_bits_unsupported_witness :
    (∀ t, parse_dts_lines (fun _ => none) [] {}
      (["/memreserve/ 0x10 0x20".data, "x = <1>".data] ++ "y = /plugin/".data :: []) ≠
        .ok t) ∧
    parse_dts_lines (fun _ => none) [] {}
      (["/memreserve/ 0x10 0x20".data, "x = <1>".data] ++ "y = /plugin/".data :: []) =
        .error .unsupported := by
  have h := C8_plugin_bits_unsupported (fun _ => none) [] {}
    ["/memreserve/ 0x10 0x20".data, "x = <1>".data] [] "y = /plugin/".data (by rfl)
  exact ⟨h.1, h.2 [⟨0x10, 0x20⟩] ⟨none, []⟩ (by rfl) (by rfl)⟩

theorem dtsNodePhase_no_opener (fs : Chars → Option (List Nat)) (rd : Chars)
    (ls : List Chars) (hno : ∀ l ∈ ls, (['{'] : Chars).isSuffixOf l = false) :
    dtsNodePhase fs rd ⟨none, []⟩ ls = .ok ⟨none, []⟩ ∨
      ∃ e, dtsNodePhase fs rd ⟨none, []⟩ ls = .error e := by
  induction ls with
  | nil => exact Or.inl rfl
  | cons l ls ih =>
    have hl := hno l (List.mem_cons_self l ls)
    have hrest : ∀ x ∈ ls, (['{'] : Chars).isSuffixOf x = false :=
      fun x hx => hno x (List.mem_cons_of_mem _ hx)
    unfold dtsNodePhase dtsStep
    rw [hl]
    simp only [Bool.false_eq_true, if_false]
    cases hcl : (['}'] : Chars).isSuffixOf l with
    | true =>
      simp only [if_true]
      exact ih hrest
    | false =>
      simp only [Bool.false_eq_true, if_false]
      cases hpr : parsePropLine fs rd l with
      | ok p => exact ih hrest
      | error e => exact Or.inr ⟨e, rfl⟩

/-- Claim C10: on a statement list without any node opener, a successful
parse_dts yields a tree whose root node is absent, while the reservation
entries and the version hints are still populated. -/
theorem C10_no_opener_root_absent (fs : Chars → Option (List Nat)) (rd : Chars)
    (ver : VerInfo) (lines : List Chars) (t : FDT)
    (hno : ∀ l ∈ lines, (['{'] : Chars).isSuffixOf l = false)
    (hok : parse_dts_lines fs rd ver lines = .ok t) :
    t.root_node = none ∧
    entriesPhase lines = .ok t.entries ∧
    t.header.version = ver.version ∧
    t.header.last_comp_version = ver.last_comp_version ∧
    t.header.boot_cpuid_phys = ver.boot_cpuid_phys.getD 0 := by
  cases he : entriesPhase lines with
  | error e =>
    rw [parse_dts_lines_entries_error fs rd ver he] at hok
    simp at hok
  | ok es =>
    rcases dtsNodePhase_no_opener fs rd lines hno with hp | ⟨e, hp⟩
    · rw [parse_dts_lines_ok fs rd ver he hp] at hok
      simp only [Except.ok.injEq] at hok
      subst hok
      refine ⟨rfl, he.symm ▸ rfl, ?_, ?_, ?_⟩
      · show (dtsHeader ver).version = ver.version
        unfold dtsHeader
        cases ver.version <;> cases ver.last_comp_version <;>
          cases ver.boot_cpuid_phys <;> rfl
      · show (dtsHeader ver).last_comp_version = ver.last_comp_version
        unfold dtsHeader
        cases ver.version <;> cases ver.last_comp_version <;>
          cases ver.boot_cpuid_phys <;> rfl
      · show (dtsHeader ver).boot_cpuid_phys = ver.boot_cpuid_phys.getD 0
        unfold dtsHeader
        cases ver.version <;> cases ver.last_comp_version <;>
          cases ver.boot_cpuid_phys <;> rfl
    · rw [parse_dts_lines_node_error fs rd ver he hp] at hok
      simp at hok

/-- Witness for C10: a single-cell word property (dropped, as no node is
open) and a /memreserve/ statement with a signed address parse to a tree
with no root, one reservation entry and the hinted version. -/
theorem C10_no_opener_root_absent_witness :
    FDT.root_node
        { header := { version := some 17 }, entries := [⟨-16, 32⟩], root_node := none } =
      none ∧
    entriesPhase ["x = <1>".data, "/memreserve/ -0x10 0x20".data] =
      .ok (FDT.entries
        { header := { version := some 17 }, entries := [⟨-16, 32⟩], root_node := none }) ∧
    (FDT.header
        { header := { version := some 17 }, entries := [⟨-16, 32⟩], root_node := none }).version =
      VerInfo.version { version := some 17 } ∧
    (FDT.header
        { header := { version := some 17 }, entries := [⟨-16, 32⟩], root_node := none }).last_comp_version =
      VerInfo.last_comp_version { version := some 17 } ∧
    (FDT.header
        { header := { version := some 17 }, entries := [⟨-16, 32⟩], root_node := none }).boot_cpuid_phys =
      (VerInfo.boot_cpuid_phys { version := some 17 }).getD 0 :=
  C10_no_opener_root_absent (fun _ => none) [] { version := some 17 }
    ["x = <1>".data, "/memreserve/ -0x10 0x20".data]
    { header := { version := some 17 }, entries := [⟨-16, 32⟩], root_node := none }
    (by
      intro l hl
      rcases List.mem_cons.mp hl with rfl | hl2
      · rfl
      · rw [List.mem_singleton] at hl2; subst hl2; rfl)
    (by rfl)

theorem sizeList_eq_sum (cs : List Node) :
    Node.sizeList cs = (cs.map Node.size).sum := by
  induction cs with
  | nil => rfl
  | cons c cs ih => simp [Node.sizeList, ih]

theorem size_pos (n : Node) : 1 ≤ Node.size n := by
  cases n with
  | mk nm kids ps =>
    show 1 ≤ 1 + Node.sizeList kids
    omega

theorem size_le_sizeList {c : Node} {cs : List Node} (h : c ∈ cs) :
    Node.size c ≤ Node.sizeList cs := by
  induction cs with
  | nil => simp at h
  | cons x xs ih =>
    have hstep : Node.sizeList (x :: xs) = Node.size x + Node.sizeList xs := rfl
    rcases List.mem_cons.mp h with rfl | hx
    · omega
    · have := ih hx
      omega

theorem stackSizes_append (s1 s2 : List (Chars × Node)) :
    stackSizes (s1 ++ s2) = stackSizes s1 + stackSizes s2 := by
  simp [stackSizes]

theorem stackSizes_map_children (cur : Chars) (kids : List Node) :
    stackSizes (kids.map (fun c => (cur, c))) = Node.sizeList kids := by
  simp [stackSizes, List.map_map, sizeList_eq_sum]
  rfl

theorem stackVisits_append (s1 s2 : List (Chars × Node)) :
    stackVisits (s1 ++ s2) = stackVisits s2 ++ stackVisits s1 := by
  simp [stackVisits]

theorem stackVisits_single (pr : Chars × Node) :
    stackVisits [pr] = visitSeq pr.1 pr.2 := by
  simp [stackVisits]

theorem stackVisits_map_children (cur : Chars) (kids : List Node) :
    stackVisits (kids.map (fun c => (cur, c))) = visitKidsRev cur kids := by
  induction kids with
  | nil => rfl
  | cons c cs ih =>
    have h1 : (c :: cs).map (fun c => (cur, c)) = [(cur, c)] ++ cs.map (fun c => (cur, c)) := rfl
    rw [h1, stackVisits_append, ih, stackVisits_single]
    rfl

theorem walkFuel_eq : ∀ (fuel : Nat) (pp : Chars) (n : Node) (stack : List (Chars × Node)),
    Node.size n + stackSizes stack ≤ fuel →
    walkFuel fuel pp n stack = visitSeq pp n ++ stackVisits stack := by
  intro fuel
  induction fuel with
  | zero =>
    intro pp n stack h
    exfalso
    have := size_pos n
    omega
  | succ fuel ih =>
    intro pp n stack h
    cases n with
    | mk nm kids ps =>
      have hsize : Node.size (Node.mk nm kids ps) = 1 + Node.sizeList kids := rfl
      unfold walkFuel
      simp only [Node.name, Node.nodes]
      cases hlast : (stack ++ kids.map (fun c => (joinPath pp nm, c))).getLast? with
      | none =>
        rw [List.getLast?_eq_none_iff] at hlast
        obtain ⟨hstack, hkids⟩ := List.append_eq_nil.mp hlast
        have hkids2 : kids = [] := by
          cases kids with
          | nil => rfl
          | cons a l => simp at hkids
        subst hstack
        subst hkids2
        simp [visitSeq, visitKidsRev, stackVisits]
      | some pr =>
        obtain ⟨ys, hys⟩ := List.getLast?_eq_some_iff.mp hlast
        have hdrop : (stack ++ kids.map (fun c => (joinPath pp nm, c))).dropLast = ys := by
          rw [hys]
          exact List.dropLast_concat
        rw [hdrop]
        have e1 : stackSizes (stack ++ kids.map (fun c => (joinPath pp nm, c))) =
            stackSizes stack + Node.sizeList kids := by
          rw [stackSizes_append, stackSizes_map_children]
        have e2 : stackSizes (ys ++ [pr]) = stackSizes ys + Node.size pr.2 := by
          rw [stackSizes_append]
          simp [stackSizes]
        rw [hys] at e1
        have hsz : Node.size pr.2 + stackSizes ys ≤ fuel := by omega
        show (joinPath pp nm, Node.mk nm kids ps) :: walkFuel fuel pr.1 pr.2 ys =
          visitSeq pp (Node.mk nm kids ps) ++ stackVisits stack
        rw [ih pr.1 pr.2 ys hsz]
        have h1 : stackVisits (stack ++ kids.map (fun c => (joinPath pp nm, c))) =
            visitKidsRev (joinPath pp nm) kids ++ stackVisits stack := by
          rw [stackVisits_append, stackVisits_map_children]
        have h2 : stackVisits (ys ++ [pr]) = visitSeq pr.1 pr.2 ++ stackVisits ys := by
          rw [stackVisits_append, stackVisits_single]
        rw [hys] at h1
        rw [h2] at h1
        rw [h1]
        rfl

theorem visit_perm_aux : ∀ (k : Nat) (n : Node), Node.size n ≤ k → ∀ (pp : Chars),
    ((visitSeq pp n).map Prod.snd).Perm (allNodes n) := by
  intro k
  induction k with
  | zero =>
    intro n h
    exfalso
    have := size_pos n
    omega
  | succ k ih =>
    intro n hsz pp
    cases n with
    | mk nm kids ps =>
      have hsize : Node.size (Node.mk nm kids ps) = 1 + Node.sizeList kids := rfl
      have hkids : ∀ c ∈ kids, Node.size c ≤ k := by
        intro c hc
        have := size_le_sizeList hc
        omega
      have hQ : ∀ (cs : List Node), (∀ c ∈ cs, Node.size c ≤ k) → ∀ (cur : Chars),
          ((visitKidsRev cur cs).map Prod.snd).Perm (allNodesList cs) := by
        intro cs
        induction cs with
        | nil =>
          intro _ _
          simp [visitKidsRev, allNodesList]
        | cons c cs ihc =>
          intro hcs cur
          have hperm1 := ihc (fun x hx => hcs x (List.mem_cons_of_mem _ hx)) cur
          have hperm2 := ih c (hcs c (List.mem_cons_self c cs)) cur
          have hrw : visitKidsRev cur (c :: cs) = visitKidsRev cur cs ++ visitSeq cur c := rfl
          have hrw2 : allNodesList (c :: cs) = allNodes c ++ allNodesList cs := rfl
          rw [hrw, hrw2, List.map_append]
          exact (List.Perm.append hperm1 hperm2).trans List.perm_append_comm
      have hrw : visitSeq pp (Node.mk nm kids ps) =
          (joinPath pp nm, Node.mk nm kids ps) :: visitKidsRev (joinPath pp nm) kids := rfl
      have hrw2 : allNodes (Node.mk nm kids ps) =
          Node.mk nm kids ps :: allNodesList kids := rfl
      rw [hrw, hrw2, List.map_cons]
      exact List.Perm.cons _ (hQ kids hkids (joinPath pp nm))

theorem visit_perm (pp : Chars) (n : Node) :
    ((visitSeq pp n).map Prod.snd).Perm (allNodes n) :=
  visit_perm_aux (Node.size n) n (Nat.le_refl _) pp

/-- Claim C6's pre-order part is false on the code: in a root with the two
children a and b (in that order), walk visits b and its subtree before a,
the reverse of the claimed depth-first pre-order. -/
theorem C6_counterexample_sibling_order :
    (FDT.walk
          { root_node := some (Node.mk ['/'] [Node.mk ['a'] [] [], Node.mk ['b'] [] []] []) }).map
        (List.map Prod.fst) =
      .ok [['/'], ['/', 'b'], ['/', 'a']] ∧
    (specPreorder []
          (Node.mk ['/'] [Node.mk ['a'] [] [], Node.mk ['b'] [] []] [])).map Prod.fst =
      [['/'], ['/', 'a'], ['/', 'b']] ∧
    ([['/'], ['/', 'b'], ['/', 'a']] : List Chars) ≠ [['/'], ['/', 'a'], ['/', 'b']] :=
  ⟨rfl, rfl, by decide⟩

/-- Claim C6, amended: walk with the default arguments yields exactly one
(path, child-nodes, properties) triple per node of the tree (the visited
nodes are a permutation of all nodes), and the order is depth first with
every node before its descendants but with the children of each node
visited in reverse sibling order (visitSeq), not in pre-order. -/
theorem C6_walk_each_node_once (t : FDT) (r : Node) (h : t.root_node = some r) :
    t.walkPairs = .ok (visitSeq [] r) ∧
    ((visitSeq [] r).map Prod.snd).Perm (allNodes r) ∧
    t.walk = .ok ((visitSeq [] r).map (fun pr => (pr.1, pr.2.nodes, pr.2.props))) := by
  have h1 : t.walkPairs = .ok (visitSeq [] r) := by
    unfold FDT.walkPairs
    rw [h]
    have h2 := walkFuel_eq (Node.size r) [] r [] (by simp [stackSizes])
    show Except.ok (walkFuel (Node.size r) [] r []) = _
    rw [h2]
    simp [stackVisits]
  refine ⟨h1, visit_perm [] r, ?_⟩
  unfold FDT.walk
  rw [h1]
  rfl

/-- Witness for the amended C6 on a concrete two-node tree. -/
theorem C6_walk_each_node_once_witness :
    FDT.walkPairs { root_node := some (Node.mk ['/'] [Node.mk ['a'] [] []] []) } =
      .ok (visitSeq [] (Node.mk ['/'] [Node.mk ['a'] [] []] [])) ∧
    ((visitSeq [] (Node.mk ['/'] [Node.mk ['a'] [] []] [])).map Prod.snd).Perm
      (allNodes (Node.mk ['/'] [Node.mk ['a'] [] []] [])) ∧
    FDT.walk { root_node := some (Node.mk ['/'] [Node.mk ['a'] [] []] []) } =
      .ok ((visitSeq [] (Node.mk ['/'] [Node.mk ['a'] [] []] [])).map
        (fun pr => (pr.1, pr.2.nodes, pr.2.props))) :=
  C6_walk_each_node_once { root_node := some (Node.mk ['/'] [Node.mk ['a'] [] []] []) }
    (Node.mk ['/'] [Node.mk ['a'] [] []] []) rfl

/-- Claim C7 is contradicted by the code (code bug): parse_dtb does not
parse the header at the given offset: Header.parse is called without the
offset (and property-name lookups also omit it), so a valid blob embedded
at offset 16 fails with BadMagic while the same blob parses at offset 0,
instead of yielding the same tree. -/
theorem C7_offset_ignored :
    parse_dtb demoBlob 0 =
      .ok { header := { magic := 0xd00dfeed, total_size := 88, off_dt_struct := 72,
                        off_dt_strings := 88, off_mem_rsvmap := 56, version := some 17,
                        last_comp_version := some 16, boot_cpuid_phys := 0,
                        size_dt_strings := 0, size_dt_struct := 16 },
            entries := [], root_node := some (Node.mk ['/'] [] []) } ∧
    parse_dtb (List.replicate 16 0 ++ demoBlob) 16 = .error .badMagic :=
  ⟨rfl, rfl⟩

/-- Claim C4 as stated is false on the code: with duplicate sibling names
(allowed by the data model) diff(T, T) is not (T, empty, empty).  For T
with two children both named a, the second carrying property p, the
property lands in only_a and only_b (and the same-tree loses it), because
path lookup always resolves to the first like-named child. -/
theorem C4_counterexample_duplicate_names :
    diff
        { root_node := some (Node.mk ['/']
            [Node.mk ['a'] [] [], Node.mk ['a'] [] [.empty ['p']]] []) }
        { root_node := some (Node.mk ['/']
            [Node.mk ['a'] [] [], Node.mk ['a'] [] [.empty ['p']]] []) } =
      .ok
        ({ root_node := some (Node.mk ['/'] [Node.mk ['a'] [] [], Node.mk ['a'] [] []] []) },
         { root_node := some (Node.mk ['/'] [Node.mk ['a'] [] [.empty ['p']]] []) },
         { root_node := some (Node.mk ['/'] [Node.mk ['a'] [] [.empty ['p']]] []) }) ∧
    Node.mk ['/'] [Node.mk ['a'] [] [.empty ['p']]] [] ≠ Node.mk ['/'] [] [] :=
  ⟨rfl, by simp⟩

theorem splitOnSubFuel_no_occ {pat : Chars} :
    ∀ (fuel : Nat) (s : Chars), (∀ i, pat.isPrefixOf (s.drop i) = false) →
    splitOnSubFuel pat fuel s = [s] := by
  intro fuel
  induction fuel with
  | zero => intro s _; rfl
  | succ fuel ih =>
    intro s h
    cases s with
    | nil => rfl
    | cons c rest =>
      have h0 := h 0
      rw [List.drop_zero] at h0
      have hcons : splitOnSubFuel pat (fuel + 1) (c :: rest) =
          (if pat.isPrefixOf (c :: rest) = true ∧ pat ≠ [] then
            [] :: splitOnSubFuel pat fuel (List.drop (pat.length - 1) rest)
           else
            match splitOnSubFuel pat fuel rest with
            | g :: gs => (c :: g) :: gs
            | [] => [[c]]) := rfl
      have hrest : ∀ i, pat.isPrefixOf (rest.drop i) = false := by
        intro i
        have := h (i + 1)
        rwa [List.drop_succ_cons] at this
      rw [hcons, if_neg (by simp [h0]), ih rest hrest]

theorem pyReplace_no_occ {s pat rep : Chars}
    (h : ∀ i, pat.isPrefixOf (s.drop i) = false) : pyReplace s pat rep = s := by
  unfold pyReplace pySplitSub
  rw [splitOnSubFuel_no_occ s.length s h]
  simp [List.intercalate]

theorem isPrefixOf_false_of_head {c : Char} {p l : Chars}
    (h : ∀ x ∈ l, x ≠ c) : ∀ i, ((c :: p).isPrefixOf (l.drop i)) = false := by
  intro i
  cases hd : l.drop i with
  | nil => rfl
  | cons x xs =>
    have hx : x ∈ l := by
      have : x ∈ l.drop i := by rw [hd]; exact List.mem_cons_self x xs
      exact List.mem_of_mem_drop this
    have hcx : (c == x) = false := by
      rw [beq_eq_false_iff_ne]
      exact fun hc => h x hx hc.symm
    simp [List.isPrefixOf, hcx]

theorem chain_no_double {s : Chars} (h : s.Chain' slashR) :
    ∀ i, (['/', '/'].isPrefixOf (s.drop i)) = false := by
  intro i
  induction s generalizing i with
  | nil => simp [List.isPrefixOf]
  | cons a rest ih =>
    cases i with
    | succ i =>
      rw [List.drop_succ_cons]
      exact ih (List.Chain'.tail h) i
    | zero =>
      rw [List.drop_zero]
      cases rest with
      | nil => simp [List.isPrefixOf]
      | cons b t =>
        have hr : slashR a b := (List.chain'_cons.mp h).1
        unfold slashR at hr
        by_cases ha : a = '/'
        · have hb : ('/' == b) = false := by
            rw [beq_eq_false_iff_ne]
            exact fun hbb => hr ⟨ha, hbb.symm⟩
          simp [List.isPrefixOf, hb]
        · have haa : ('/' == a) = false := by
            rw [beq_eq_false_iff_ne]
            exact fun hc => ha hc.symm
          simp [List.isPrefixOf, haa]

theorem triple_no_occ_of_double {s : Chars}
    (h : ∀ i, (['/', '/'].isPrefixOf (s.drop i)) = false) :
    ∀ i, (['/', '/', '/'].isPrefixOf (s.drop i)) = false := by
  intro i
  cases h3 : (['/', '/', '/'].isPrefixOf (s.drop i)) with
  | false => rfl
  | true =>
    exfalso
    obtain ⟨t, ht⟩ := List.isPrefixOf_iff_prefix.mp h3
    have h2 : (['/', '/'].isPrefixOf (s.drop i)) = true := by
      rw [← ht]
      simp [List.isPrefixOf]
    rw [h i] at h2
    exact Bool.false_ne_true h2

theorem chain_noslash {nm : Chars} (h : '/' ∉ nm) : nm.Chain' slashR := by
  induction nm with
  | nil => exact List.chain'_nil
  | cons a rest ih =>
    cases rest with
    | nil => simp
    | cons b t =>
      rw [List.chain'_cons]
      constructor
      · intro hc
        exact h (hc.1 ▸ List.mem_cons_self a _)
      · exact ih (fun hm => h (List.mem_cons_of_mem a hm))

theorem pathStr_cons (nm : Chars) (q : List Chars) :
    pathStr (nm :: q) = '/' :: (nm ++ pathStr q) := by
  simp [pathStr]

theorem pathStr_append (q1 q2 : List Chars) :
    pathStr (q1 ++ q2) = pathStr q1 ++ pathStr q2 := by
  simp [pathStr]

theorem pathStr_ne_nil {q : List Chars} (h : q ≠ []) : pathStr q ≠ [] := by
  cases q with
  | nil => exact absurd rfl h
  | cons nm q => rw [pathStr_cons]; simp

theorem snoc_decomp {q : List Chars} (h : q ≠ []) :
    ∃ r nm, q = r ++ [nm] := by
  obtain ⟨nm, r, hrev⟩ := List.exists_cons_of_ne_nil (show q.reverse ≠ [] by simpa)
  refine ⟨r.reverse, nm, ?_⟩
  have := congrArg List.reverse hrev
  simpa using this

theorem getLast_slash_cons {nm : Chars} (hne : nm ≠ []) :
    ('/' :: nm).getLast? = nm.getLast? := by
  have h : ('/' :: nm) = ['/'] ++ nm := rfl
  rw [h, List.getLast?_append_of_ne_nil _ hne]

theorem pathStr_getLast {q : List Chars} (hq : q ≠ []) (hwf : wfNames q) :
    ∀ c, (pathStr q).getLast? = some c → c ≠ '/' := by
  obtain ⟨r, nm, rfl⟩ := snoc_decomp hq
  intro c hc
  rw [pathStr_append] at hc
  rw [List.getLast?_append_of_ne_nil _ (pathStr_ne_nil (by simp))] at hc
  have h1 : pathStr [nm] = '/' :: nm := by simp [pathStr]
  rw [h1] at hc
  have hnm : wfName nm := hwf nm (by simp)
  obtain ⟨hne, hns⟩ := hnm
  rw [getLast_slash_cons hne] at hc
  have hmem : c ∈ nm := List.mem_of_getLast?_eq_some hc
  exact fun hcc => hns (hcc ▸ hmem)

theorem pathStr_chain {q : List Chars} (hwf : wfNames q) :
    (pathStr q).Chain' slashR := by
  induction q with
  | nil => exact List.chain'_nil
  | cons nm q ih =>
    have hnm : wfName nm := hwf nm (by simp)
    have hq : wfNames q := fun x hx => hwf x (List.mem_cons_of_mem _ hx)
    have hchain_nm : ('/' :: nm).Chain' slashR := by
      cases hc : nm with
      | nil => simp
      | cons a t =>
        rw [List.chain'_cons]
        refine ⟨?_, ?_⟩
        · intro hcc
          exact hnm.2 (by rw [hc]; exact hcc.2 ▸ List.mem_cons_self a t)
        · have := chain_noslash (hc ▸ hnm.2)
          exact this
    rw [pathStr_cons]
    have hsplit : '/' :: (nm ++ pathStr q) = ('/' :: nm) ++ pathStr q := by simp
    rw [hsplit, List.chain'_append]
    refine ⟨hchain_nm, ih hq, ?_⟩
    intro x hx y hy
    cases hqq : q with
    | nil =>
      rw [hqq] at hy
      simp [pathStr] at hy
    | cons m q2 =>
      rw [hqq, pathStr_cons] at hy
      simp at hy
      intro hxy
      have hx2 : x ∈ ('/' :: nm).getLast? := hx
      rw [getLast_slash_cons hnm.1] at hx2
      have : x ∈ nm := List.mem_of_getLast?_eq_some hx2
      exact hnm.2 (hxy.1 ▸ this)


theorem no_dslash_of_no_slash {nm : Chars} (h : '/' ∉ nm) :
    ∀ i, (['/', '/'].isPrefixOf (nm.drop i)) = false :=
  isPrefixOf_false_of_head (fun x hx hc => h (hc ▸ hx))

theorem slash_prefix_false {nm : Chars} (h : '/' ∉ nm) (p : Chars) :
    ∀ i, (('/' :: p).isPrefixOf (nm.drop i)) = false :=
  isPrefixOf_false_of_head (fun x hx hc => h (hc ▸ hx))

theorem no_triple_front {nm : Chars} (h : '/' ∉ nm) :
    ∀ i, (['/', '/', '/'].isPrefixOf (('/' :: '/' :: nm).drop i)) = false := by
  intro i
  match i with
  | 0 =>
    rw [List.drop_zero]
    have h1 := slash_prefix_false h [] 0
    rw [List.drop_zero] at h1
    simp [List.isPrefixOf, h1]
  | 1 =>
    rw [show (('/' :: '/' :: nm).drop 1) = '/' :: nm from rfl]
    have h1 := slash_prefix_false h ['/'] 0
    rw [List.drop_zero] at h1
    simp [List.isPrefixOf, h1]
  | (i + 2) =>
    rw [show (('/' :: '/' :: nm).drop (i + 2)) = nm.drop i from rfl]
    exact slash_prefix_false h ['/', '/'] i

theorem pySplitSub_dslash_front {nm : Chars} (h : '/' ∉ nm) :
    pySplitSub ('/' :: '/' :: nm) ['/', '/'] = [[], nm] := by
  unfold pySplitSub
  rw [show ('/' :: '/' :: nm).length = nm.length + 2 from rfl]
  have hcons : splitOnSubFuel ['/', '/'] (nm.length + 2) ('/' :: '/' :: nm) =
      (if List.isPrefixOf ['/', '/'] ('/' :: '/' :: nm) = true ∧ (['/', '/'] : Chars) ≠ [] then
        [] :: splitOnSubFuel ['/', '/'] (nm.length + 1) (List.drop ((['/', '/'] : Chars).length - 1) ('/' :: nm))
       else
        match splitOnSubFuel ['/', '/'] (nm.length + 1) ('/' :: nm) with
        | g :: gs => ('/' :: g) :: gs
        | [] => [['/']]) := rfl
  rw [hcons, if_pos (by simp [List.isPrefixOf])]
  rw [show List.drop ((['/', '/'] : Chars).length - 1) ('/' :: nm) = nm from rfl]
  rw [splitOnSubFuel_no_occ (nm.length + 1) nm (no_dslash_of_no_slash h)]

theorem joinPath_rootname {nm : Chars} (hnm : wfName nm) :
    joinPath ['/'] nm = '/' :: nm := by
  unfold joinPath
  rw [show "///".data = ['/', '/', '/'] from rfl, show "//".data = ['/', '/'] from rfl,
      show "/".data = ['/'] from rfl,
      show (['/'] ++ ['/'] ++ nm) = '/' :: '/' :: nm from rfl]
  rw [pyReplace_no_occ (no_triple_front hnm.2)]
  unfold pyReplace
  rw [pySplitSub_dslash_front hnm.2]
  simp [List.intercalate]

theorem joinPath_chain {q : List Chars} {nm : Chars} (hq : wfNames q) (hq0 : q ≠ [])
    (hnm : wfName nm) : joinPath (pathStr q) nm = pathStr (q ++ [nm]) := by
  have hall : wfNames (q ++ [nm]) := by
    intro x hx
    rcases List.mem_append.mp hx with h1 | h1
    · exact hq x h1
    · rw [List.mem_singleton.mp h1]; exact hnm
  have hform : pathStr q ++ ['/'] ++ nm = pathStr (q ++ [nm]) := by
    rw [pathStr_append, show pathStr [nm] = '/' :: nm from by simp [pathStr]]
    simp
  have hchain : (pathStr (q ++ [nm])).Chain' slashR := pathStr_chain hall
  have hdb := chain_no_double hchain
  have htr := triple_no_occ_of_double hdb
  unfold joinPath
  rw [show "///".data = ['/', '/', '/'] from rfl, show "//".data = ['/', '/'] from rfl,
      show "/".data = ['/'] from rfl, hform]
  rw [pyReplace_no_occ htr, pyReplace_no_occ hdb]

theorem joinPath_disp {q : List Chars} {nm : Chars} (hq : wfNames q) (hnm : wfName nm) :
    joinPath (dispPath q) nm = pathStr (q ++ [nm]) := by
  cases q with
  | nil =>
    rw [show dispPath [] = ['/'] from rfl, joinPath_rootname hnm]
    simp [pathStr]
  | cons m q2 =>
    rw [show dispPath (m :: q2) = pathStr (m :: q2) from rfl]
    exact joinPath_chain hq (by simp) hnm

theorem joinPath_root_slash : joinPath [] ['/'] = ['/'] := by decide

theorem splitOnChar_no_sep {nm : Chars} (h : '/' ∉ nm) :
    splitOnChar '/' nm = [nm] := by
  induction nm with
  | nil => rfl
  | cons c rest ih =>
    have hc : ¬c = '/' := fun hc => h (hc ▸ List.mem_cons_self c rest)
    rw [show splitOnChar '/' (c :: rest) =
        (if c = '/' then [] :: splitOnChar '/' rest
         else match splitOnChar '/' rest with
          | g :: gs => (c :: g) :: gs
          | [] => [[c]]) from rfl]
    rw [if_neg hc, ih (fun hm => h (List.mem_cons_of_mem c hm))]

theorem splitOnChar_prepend {nm s : Chars} (h : '/' ∉ nm) :
    splitOnChar '/' (nm ++ '/' :: s) = nm :: splitOnChar '/' s := by
  induction nm with
  | nil =>
    rw [List.nil_append]
    rw [show splitOnChar '/' ('/' :: s) =
        (if '/' = '/' then [] :: splitOnChar '/' s
         else match splitOnChar '/' s with
          | g :: gs => ('/' :: g) :: gs
          | [] => [['/']]) from rfl]
    rw [if_pos rfl]
  | cons c rest ih =>
    have hc : ¬c = '/' := fun hc => h (hc ▸ List.mem_cons_self c rest)
    rw [List.cons_append]
    rw [show splitOnChar '/' (c :: (rest ++ '/' :: s)) =
        (if c = '/' then [] :: splitOnChar '/' (rest ++ '/' :: s)
         else match splitOnChar '/' (rest ++ '/' :: s) with
          | g :: gs => (c :: g) :: gs
          | [] => [[c]]) from rfl]
    rw [if_neg hc, ih (fun hm => h (List.mem_cons_of_mem c hm))]

theorem splitOnChar_pathTail {q : List Chars} (hq : wfNames q) :
    ∀ nm, '/' ∉ nm → splitOnChar '/' (nm ++ pathStr q) = nm :: q := by
  induction q with
  | nil =>
    intro nm h
    rw [show pathStr [] = [] from rfl, List.append_nil]
    exact splitOnChar_no_sep h
  | cons m q2 ih =>
    intro nm h
    rw [pathStr_cons, splitOnChar_prepend h]
    rw [ih (fun x hx => hq x (List.mem_cons_of_mem m hx)) m (hq m (List.mem_cons_self m q2)).2]

theorem dropWhile_slash_stops {nm s : Chars} (hne : nm ≠ []) (h : '/' ∉ nm) :
    List.dropWhile (fun c => c == '/') (nm ++ s) = nm ++ s := by
  cases nm with
  | nil => exact absurd rfl hne
  | cons c rest =>
    have hc : (c == '/') = false := by
      rw [beq_eq_false_iff_ne]
      exact fun hc => h (hc ▸ List.mem_cons_self c rest)
    rw [List.cons_append, List.dropWhile_cons, hc]
    simp

theorem splitPath_disp {q : List Chars} (hq : wfNames q) :
    splitPath (dispPath q) = q := by
  cases q with
  | nil => rfl
  | cons m q2 =>
    have hm : wfName m := hq m (List.mem_cons_self m q2)
    rw [show dispPath (m :: q2) = pathStr (m :: q2) from rfl, pathStr_cons]
    unfold splitPath
    rw [show List.dropWhile (fun c => c == '/') ('/' :: (m ++ pathStr q2)) =
        List.dropWhile (fun c => c == '/') (m ++ pathStr q2) from by
      rw [List.dropWhile_cons]; simp]
    rw [dropWhile_slash_stops hm.1 hm.2]
    have hne : m ++ pathStr q2 ≠ [] := by
      cases m with
      | nil => exact absurd rfl hm.1
      | cons c rest => simp
    rw [if_neg hne]
    exact splitOnChar_pathTail (fun x hx => hq x (List.mem_cons_of_mem m hx)) m hm.2

theorem Node.append_name (n : Node) (it : Item) : (n.append it).name = n.name := by
  cases it <;> rfl

theorem setFirstChild_name (n : Node) (nm : Chars) (c : Node) :
    (n.setFirstChild nm c).name = n.name := rfl

theorem updAt_name_cons (f : Node → Node) (n : Node) (nm : Chars) (rest : List Chars) :
    (updAt f n (nm :: rest)).name = n.name := by
  rw [show updAt f n (nm :: rest) =
      (match n.get_subnode nm with
       | some c => n.setFirstChild nm (updAt f c rest)
       | none => n) from rfl]
  cases h : n.get_subnode nm with
  | some c => rfl
  | none => rfl

theorem find?_none_of_names {l : List Node} {nm : Chars}
    (h : ∀ x ∈ l, (x.name == nm) = false) :
    l.find? (fun y => y.name == nm) = none :=
  List.find?_eq_none.mpr (fun x hx => by rw [h x hx]; exact Bool.false_ne_true)

theorem replaceFirstNode_append_left {l1 : List Node} {nm : Chars} {c : Node}
    (h : ∀ x ∈ l1, (x.name == nm) = false) (l2 : List Node) :
    replaceFirstNode nm c (l1 ++ l2) = l1 ++ replaceFirstNode nm c l2 := by
  induction l1 with
  | nil => rfl
  | cons x xs ih =>
    rw [List.cons_append]
    rw [show replaceFirstNode nm c (x :: (xs ++ l2)) =
        (if x.name == nm then c :: (xs ++ l2)
         else x :: replaceFirstNode nm c (xs ++ l2)) from rfl]
    rw [if_neg (by rw [h x (List.mem_cons_self x xs)]; exact Bool.false_ne_true)]
    rw [ih (fun y hy => h y (List.mem_cons_of_mem x hy)), List.cons_append]

theorem replaceFirstNode_cons_pos {x : Node} {nm : Chars} (c : Node) (xs : List Node)
    (h : (x.name == nm) = true) : replaceFirstNode nm c (x :: xs) = c :: xs := by
  rw [show replaceFirstNode nm c (x :: xs) =
      (if x.name == nm then c :: xs else x :: replaceFirstNode nm c xs) from rfl]
  rw [if_pos h]

theorem replaceFirst_replaceFirst {l : List Node} {nm : Chars} {c x : Node}
    (h : l.find? (fun y => y.name == nm) = some c) (hx : x.name = c.name) (y : Node) :
    replaceFirstNode nm y (replaceFirstNode nm x l) = replaceFirstNode nm y l := by
  induction l with
  | nil => simp at h
  | cons z zs ih =>
    cases hz : (z.name == nm) with
    | true =>
      have hc : z = c := by
        rw [find?_cons_pos _ z zs hz] at h
        exact Option.some.inj h
      rw [replaceFirstNode_cons_pos x zs hz]
      rw [replaceFirstNode_cons_pos y zs (by rw [hx, ← hc]; exact hz)]
      rw [replaceFirstNode_cons_pos y zs hz]
    | false =>
      rw [find?_cons_neg _ z zs hz] at h
      rw [show replaceFirstNode nm x (z :: zs) =
          (if z.name == nm then x :: zs else z :: replaceFirstNode nm x zs) from rfl]
      rw [if_neg (by rw [hz]; exact Bool.false_ne_true)]
      rw [show replaceFirstNode nm y (z :: replaceFirstNode nm x zs) =
          (if z.name == nm then y :: replaceFirstNode nm x zs
           else z :: replaceFirstNode nm y (replaceFirstNode nm x zs)) from rfl]
      rw [if_neg (by rw [hz]; exact Bool.false_ne_true)]
      rw [show replaceFirstNode nm y (z :: zs) =
          (if z.name == nm then y :: zs else z :: replaceFirstNode nm y zs) from rfl]
      rw [if_neg (by rw [hz]; exact Bool.false_ne_true)]
      rw [ih h]

theorem resolve_updAt {q : List Chars} {n s : Node} {f : Node → Node}
    (h : resolve n q = some s) (hname : (f s).name = s.name) :
    resolve (updAt f n q) q = some (f s) := by
  induction q generalizing n with
  | nil =>
    have hn : n = s := Option.some.inj h
    rw [show updAt f n [] = f n from rfl, hn]
    rfl
  | cons nm q2 ih =>
    replace h : (match n.get_subnode nm with
        | some c => resolve c q2
        | none => none) = some s := h
    cases hc : n.get_subnode nm with
    | none => rw [hc] at h; exact absurd h (by simp)
    | some c =>
      rw [hc] at h
      have hnamec : (updAt f c q2).name = c.name := by
        cases q2 with
        | nil =>
          have : c = s := Option.some.inj h
          rw [show updAt f c [] = f c from rfl, this, hname]
        | cons m q3 => exact updAt_name_cons f c m q3
      rw [show updAt f n (nm :: q2) =
          (match n.get_subnode nm with
           | some c => n.setFirstChild nm (updAt f c q2)
           | none => n) from rfl, hc]
      show resolve (n.setFirstChild nm (updAt f c q2)) (nm :: q2) = some (f s)
      rw [show resolve (n.setFirstChild nm (updAt f c q2)) (nm :: q2) =
          (match (n.setFirstChild nm (updAt f c q2)).get_subnode nm with
           | some c2 => resolve c2 q2
           | none => none) from rfl]
      rw [get_subnode_setFirstChild hc hnamec]
      exact ih h

theorem updAt_updAt {q : List Chars} {n s : Node} {g : Node → Node}
    (h : resolve n q = some s) (hg : (g s).name = s.name) (f : Node → Node) :
    updAt f (updAt g n q) q = updAt (fun x => f (g x)) n q := by
  induction q generalizing n with
  | nil => rfl
  | cons nm q2 ih =>
    replace h : (match n.get_subnode nm with
        | some c => resolve c q2
        | none => none) = some s := h
    cases hc : n.get_subnode nm with
    | none =>
      rw [hc] at h
      exact absurd h (by simp)
    | some c =>
      rw [hc] at h
      have hnamec : (updAt g c q2).name = c.name := by
        cases q2 with
        | nil =>
          have : c = s := Option.some.inj h
          rw [show updAt g c [] = g c from rfl, this, hg]
        | cons m q3 => exact updAt_name_cons g c m q3
      rw [show updAt g n (nm :: q2) =
          (match n.get_subnode nm with
           | some c => n.setFirstChild nm (updAt g c q2)
           | none => n) from rfl, hc]
      rw [show updAt f (n.setFirstChild nm (updAt g c q2)) (nm :: q2) =
          (match (n.setFirstChild nm (updAt g c q2)).get_subnode nm with
           | some c2 => (n.setFirstChild nm (updAt g c q2)).setFirstChild nm (updAt f c2 q2)
           | none => n.setFirstChild nm (updAt g c q2)) from rfl]
      rw [get_subnode_setFirstChild hc hnamec]
      rw [show updAt (fun x => f (g x)) n (nm :: q2) =
          (match n.get_subnode nm with
           | some c => n.setFirstChild nm (updAt (fun x => f (g x)) c q2)
           | none => n) from rfl, hc]
      replace h : resolve c q2 = some s := h
      show (n.setFirstChild nm (updAt g c q2)).setFirstChild nm (updAt f (updAt g c q2) q2) =
        n.setFirstChild nm (updAt (fun x => f (g x)) c q2)
      rw [ih h]
      show Node.mk n.name
          (replaceFirstNode nm (updAt (fun x => f (g x)) c q2)
            (replaceFirstNode nm (updAt g c q2) n.nodes)) n.props =
        n.setFirstChild nm (updAt (fun x => f (g x)) c q2)
      rw [replaceFirst_replaceFirst hc hnamec]
      rfl

theorem addRoot_eq_updAt {q : List Chars} {n : Node} (f : Node → Node)
    (h : (resolve n q).isSome = true) : addRoot f n q = updAt f n q := by
  induction q generalizing n with
  | nil => rfl
  | cons nm q2 ih =>
    replace h : (Option.isSome (match n.get_subnode nm with
        | some c => resolve c q2
        | none => none)) = true := h
    cases hc : n.get_subnode nm with
    | none =>
      rw [hc] at h
      simp at h
    | some c =>
      rw [hc] at h
      rw [show addRoot f n (nm :: q2) =
          (match n.get_subnode nm with
           | some c => n.setFirstChild nm (addRoot f c q2)
           | none => n.append (.node (addRoot f (Node.mk nm [] []) q2))) from rfl, hc]
      rw [show updAt f n (nm :: q2) =
          (match n.get_subnode nm with
           | some c => n.setFirstChild nm (updAt f c q2)
           | none => n) from rfl, hc]
      replace h : (resolve c q2).isSome = true := h
      show n.setFirstChild nm (addRoot f c q2) = n.setFirstChild nm (updAt f c q2)
      rw [ih h]

theorem fdtGetOpt_disp {t : FDT} {r : Node} {q : List Chars}
    (ht : t.root_node = some r) (hq : wfNames q) :
    fdtGetOpt t (dispPath q) = resolve r q := by
  unfold fdtGetOpt
  rw [FDT.get_node_some ht, getNodeApply_false_eq, splitPath_disp hq]
  cases h : resolve r q with
  | some m => rfl
  | none => rfl

theorem add_item_some {t : FDT} {r : Node} (h : t.root_node = some r)
    (obj : Item) (path : Chars) :
    t.add_item obj path =
      (match getNodeApply true (fun n => n.append obj) r (splitPath path) with
       | .ok (r2, _) => { t with root_node := some r2 }
       | .error _ => t) := by
  unfold FDT.add_item
  rw [h]

theorem add_item_disp {t : FDT} {r s : Node} {q : List Chars}
    (ht : t.root_node = some r) (hq : wfNames q) (hres : resolve r q = some s)
    (obj : Item) :
    t.add_item obj (dispPath q) =
      { t with root_node := some (updAt (fun n => n.append obj) r q) } := by
  rw [add_item_some ht, getNodeApply_true_eq, splitPath_disp hq]
  rw [addRoot_eq_updAt _ (by rw [hres]; rfl)]

theorem find?_prop_self {props : List PropItem} {pa : PropItem}
    (hnd : (props.map PropItem.name).Nodup) (hmem : pa ∈ props) :
    props.find? (fun p => p.name == pa.name) = some pa := by
  induction props with
  | nil => simp at hmem
  | cons x xs ih =>
    rcases List.mem_cons.mp hmem with rfl | hmem2
    · rw [List.find?_cons]
      simp
    · have hx : (x.name == pa.name) = false := by
        rw [beq_eq_false_iff_ne]
        intro he
        have h1 : x.name ∉ xs.map PropItem.name := by
          rw [List.map_cons] at hnd
          exact (List.nodup_cons.mp hnd).1
        exact h1 (he ▸ List.mem_map_of_mem PropItem.name hmem2)
      rw [List.find?_cons, hx]
      exact ih (List.nodup_cons.mp (by rw [List.map_cons] at hnd; exact hnd)).2 hmem2

theorem find?_node_self {kids : List Node} {c : Node}
    (hnd : (kids.map Node.name).Nodup) (hmem : c ∈ kids) :
    kids.find? (fun y => y.name == c.name) = some c := by
  induction kids with
  | nil => simp at hmem
  | cons x xs ih =>
    rcases List.mem_cons.mp hmem with rfl | hmem2
    · exact find?_cons_pos _ c xs (by simp)
    · have hx : (x.name == c.name) = false := by
        rw [beq_eq_false_iff_ne]
        intro he
        have h1 : x.name ∉ xs.map Node.name := by
          rw [List.map_cons] at hnd
          exact (List.nodup_cons.mp hnd).1
        exact h1 (he ▸ List.mem_map_of_mem Node.name hmem2)
      rw [find?_cons_neg _ x xs hx]
      exact ih (List.nodup_cons.mp (by rw [List.map_cons] at hnd; exact hnd)).2 hmem2

theorem Node.eta (n : Node) : Node.mk n.name n.nodes n.props = n := by
  cases n with
  | mk nm kids props => rfl

theorem dispPath_ne_nil {q : List Chars} (h : q ≠ []) : dispPath q = pathStr q := by
  cases q with
  | nil => exact absurd rfl h
  | cons m q2 => rfl

theorem foldl_const_id {α β : Type} (i : α) (l : List β) :
    List.foldl (fun a _ => a) i l = i := by
  induction l generalizing i with
  | nil => rfl
  | cons x xs ih => exact ih i

theorem resolve_append (q1 q2 : List Chars) : ∀ n : Node,
    resolve n (q1 ++ q2) = (resolve n q1).bind (fun m => resolve m q2) := by
  induction q1 with
  | nil => intro n; rfl
  | cons nm q1 ih =>
    intro n
    rw [show (nm :: q1) ++ q2 = nm :: (q1 ++ q2) from rfl]
    rw [show resolve n (nm :: (q1 ++ q2)) =
        (match n.get_subnode nm with
         | some c => resolve c (q1 ++ q2)
         | none => none) from rfl]
    rw [show resolve n (nm :: q1) =
        (match n.get_subnode nm with
         | some c => resolve c q1
         | none => none) from rfl]
    cases hc : n.get_subnode nm with
    | some c => exact ih c
    | none => rfl

theorem updAt_append (q1 q2 : List Chars) (f : Node → Node) : ∀ n : Node,
    updAt f n (q1 ++ q2) = updAt (fun x => updAt f x q2) n q1 := by
  induction q1 with
  | nil => intro n; rfl
  | cons nm q1 ih =>
    intro n
    rw [show (nm :: q1) ++ q2 = nm :: (q1 ++ q2) from rfl]
    rw [show updAt f n (nm :: (q1 ++ q2)) =
        (match n.get_subnode nm with
         | some c => n.setFirstChild nm (updAt f c (q1 ++ q2))
         | none => n) from rfl]
    rw [show updAt (fun x => updAt f x q2) n (nm :: q1) =
        (match n.get_subnode nm with
         | some c => n.setFirstChild nm (updAt (fun x => updAt f x q2) c q1)
         | none => n) from rfl]
    cases hc : n.get_subnode nm with
    | some c =>
      show n.setFirstChild nm (updAt f c (q1 ++ q2)) =
        n.setFirstChild nm (updAt (fun x => updAt f x q2) c q1)
      rw [ih c]
    | none => rfl

theorem updAt_self {q : List Chars} {n s : Node} {f : Node → Node}
    (h : resolve n q = some s) (hf : f s = s) : updAt f n q = n := by
  induction q generalizing n with
  | nil =>
    have hn : n = s := Option.some.inj h
    show f n = n
    rw [hn, hf]
  | cons nm q2 ih =>
    replace h : (match n.get_subnode nm with
        | some c => resolve c q2
        | none => none) = some s := h
    cases hc : n.get_subnode nm with
    | none => rw [hc] at h; exact absurd h (by simp)
    | some c =>
      rw [hc] at h
      rw [show updAt f n (nm :: q2) =
          (match n.get_subnode nm with
           | some c => n.setFirstChild nm (updAt f c q2)
           | none => n) from rfl, hc]
      show n.setFirstChild nm (updAt f c q2) = n
      rw [ih h]
      show Node.mk n.name (replaceFirstNode nm c n.nodes) n.props = n
      rw [replaceFirstNode_self hc, Node.eta]

theorem updAt_comp {q : List Chars} {n s : Node} {g : Node → Node}
    (h : resolve n q = some s) (hg : (g s).name = s.name) (f fg : Node → Node)
    (hfg : ∀ x, f (g x) = fg x) :
    updAt f (updAt g n q) q = updAt fg n q := by
  induction q generalizing n with
  | nil => exact hfg n
  | cons nm q2 ih =>
    replace h : (match n.get_subnode nm with
        | some c => resolve c q2
        | none => none) = some s := h
    cases hc : n.get_subnode nm with
    | none =>
      rw [hc] at h
      exact absurd h (by simp)
    | some c =>
      rw [hc] at h
      have hnamec : (updAt g c q2).name = c.name := by
        cases q2 with
        | nil =>
          have : c = s := Option.some.inj h
          rw [show updAt g c [] = g c from rfl, this, hg]
        | cons m q3 => exact updAt_name_cons g c m q3
      rw [show updAt g n (nm :: q2) =
          (match n.get_subnode nm with
           | some c => n.setFirstChild nm (updAt g c q2)
           | none => n) from rfl, hc]
      rw [show updAt f (n.setFirstChild nm (updAt g c q2)) (nm :: q2) =
          (match (n.setFirstChild nm (updAt g c q2)).get_subnode nm with
           | some c2 => (n.setFirstChild nm (updAt g c q2)).setFirstChild nm (updAt f c2 q2)
           | none => n.setFirstChild nm (updAt g c q2)) from rfl]
      rw [get_subnode_setFirstChild hc hnamec]
      rw [show updAt fg n (nm :: q2) =
          (match n.get_subnode nm with
           | some c => n.setFirstChild nm (updAt fg c q2)
           | none => n) from rfl, hc]
      replace h : resolve c q2 = some s := h
      show (n.setFirstChild nm (updAt g c q2)).setFirstChild nm (updAt f (updAt g c q2) q2) =
        n.setFirstChild nm (updAt fg c q2)
      rw [ih h]
      show Node.mk n.name
          (replaceFirstNode nm (updAt fg c q2)
            (replaceFirstNode nm (updAt g c q2) n.nodes)) n.props =
        n.setFirstChild nm (updAt fg c q2)
      rw [replaceFirst_replaceFirst hc hnamec]
      rfl

theorem add_items_nodes {q : List Chars} (hq : wfNames q) :
    ∀ (kids2 : List Node) (S : FDT) (sr s : Node),
    S.root_node = some sr → resolve sr q = some s →
    kids2.foldl (fun S2 nb => S2.add_item (.node (stubOf nb)) (dispPath q)) S
      = { S with root_node := some (updAt
          (fun x => Node.mk x.name (x.nodes ++ kids2.map stubOf) x.props) sr q) } := by
  intro kids2
  induction kids2 with
  | nil =>
    intro S sr s hS hres
    rw [List.foldl_nil]
    rw [updAt_self hres (show Node.mk s.name (s.nodes ++ List.map stubOf []) s.props = s from by
      rw [show List.map stubOf [] = ([] : List Node) from rfl, List.append_nil, Node.eta])]
    rw [← hS]
  | cons nb rest ih =>
    intro S sr s hS hres
    rw [List.foldl_cons]
    rw [add_item_disp hS hq hres (.node (stubOf nb))]
    have hgname : (s.append (Item.node (stubOf nb))).name = s.name :=
      Node.append_name s (.node (stubOf nb))
    have hres1 : resolve (updAt (fun n => n.append (.node (stubOf nb))) sr q) q =
        some (s.append (.node (stubOf nb))) := resolve_updAt hres hgname
    rw [ih { S with root_node := some (updAt (fun n => n.append (.node (stubOf nb))) sr q) }
        (updAt (fun n => n.append (.node (stubOf nb))) sr q) (s.append (.node (stubOf nb)))
        rfl hres1]
    rw [updAt_comp hres hgname
        (fun x => Node.mk x.name (x.nodes ++ List.map stubOf rest) x.props)
        (fun x => Node.mk x.name (x.nodes ++ List.map stubOf (nb :: rest)) x.props)
        (fun x => by
          show Node.mk x.name ((x.nodes ++ [stubOf nb]) ++ List.map stubOf rest) x.props =
            Node.mk x.name (x.nodes ++ List.map stubOf (nb :: rest)) x.props
          rw [List.append_assoc]
          rfl)]

theorem add_items_props {q : List Chars} (hq : wfNames q) :
    ∀ (props2 : List PropItem) (S : FDT) (sr s : Node),
    S.root_node = some sr → resolve sr q = some s →
    props2.foldl (fun S2 pa => S2.add_item (.prop pa.copy) (dispPath q)) S
      = { S with root_node := some (updAt
          (fun x => Node.mk x.name x.nodes (x.props ++ props2)) sr q) } := by
  intro props2
  induction props2 with
  | nil =>
    intro S sr s hS hres
    rw [List.foldl_nil]
    rw [updAt_self hres (show Node.mk s.name s.nodes (s.props ++ []) = s from by
      rw [List.append_nil, Node.eta])]
    rw [← hS]
  | cons pa rest ih =>
    intro S sr s hS hres
    rw [List.foldl_cons]
    rw [add_item_disp hS hq hres (.prop pa.copy)]
    have hgname : (s.append (Item.prop pa.copy)).name = s.name :=
      Node.append_name s (.prop pa.copy)
    have hres1 : resolve (updAt (fun n => n.append (.prop pa.copy)) sr q) q =
        some (s.append (.prop pa.copy)) := resolve_updAt hres hgname
    rw [ih { S with root_node := some (updAt (fun n => n.append (.prop pa.copy)) sr q) }
        (updAt (fun n => n.append (.prop pa.copy)) sr q) (s.append (.prop pa.copy))
        rfl hres1]
    rw [updAt_comp hres hgname
        (fun x => Node.mk x.name x.nodes (x.props ++ rest))
        (fun x => Node.mk x.name x.nodes (x.props ++ pa :: rest))
        (fun x => by
          show Node.mk x.name x.nodes ((x.props ++ [pa.copy]) ++ rest) =
            Node.mk x.name x.nodes (x.props ++ pa :: rest)
          rw [List.append_assoc]
          rfl)]

theorem foldl_pair_fst {α β γ : Type} (f : α → γ → α) :
    ∀ (l : List γ) (a : α) (b : β),
    l.foldl (fun (acc : α × β) x => (f acc.1 x, acc.2)) (a, b) = (l.foldl f a, b) := by
  intro l
  induction l with
  | nil => intro a b; rfl
  | cons x xs ih => intro a b; exact ih (f a x) b

theorem diff1_step {t : FDT} {r : Node} (ht : t.root_node = some r)
    {q : List Chars} (hq : wfNames q)
    {nm : Chars} {kids : List Node} {props : List PropItem}
    (hr : resolve r q = some (Node.mk nm kids props))
    (hnd_k : (kids.map Node.name).Nodup)
    (hnd_p : (props.map PropItem.name).Nodup)
    {S A : FDT} {sr s : Node}
    (hS : S.root_node = some sr) (hres : resolve sr q = some s) :
    diffStep1 t (S, A) (dispPath q, Node.mk nm kids props) =
      ({ S with root_node := some (updAt
          (fun x => Node.mk x.name (x.nodes ++ kids.map stubOf) (x.props ++ props)) sr q) },
       A) := by
  have hkids : ∀ nb ∈ kids, ((Node.mk nm kids props).get_subnode nb.name).isSome = true := by
    intro nb hnb
    show (kids.find? (fun y => y.name == nb.name)).isSome = true
    rw [find?_node_self hnd_k hnb]
    rfl
  have hprops : ∀ pa ∈ props, (Node.mk nm kids props).get_property pa.name = some pa := by
    intro pa hpa
    show props.find? (fun p => p.name == pa.name) = some pa
    exact find?_prop_self hnd_p hpa
  show List.foldl (diff1PropStep (fdtGetOpt t (dispPath q)) (dispPath q))
      (List.foldl (diff1KidStep (fdtGetOpt t (dispPath q)) (dispPath q)) (S, A) kids)
      props =
    ({ S with root_node := some (updAt
        (fun x => Node.mk x.name (x.nodes ++ kids.map stubOf) (x.props ++ props)) sr q) },
     A)
  rw [fdtGetOpt_disp ht hq, hr]
  rw [List.foldl_ext
      (diff1KidStep (some (Node.mk nm kids props)) (dispPath q))
      (fun (acc : FDT × FDT) nb => (acc.1.add_item (.node (stubOf nb)) (dispPath q), acc.2))
      (S, A)
      (fun acc nb hnb => by
        show (if ((Node.mk nm kids props).get_subnode nb.name).isSome = true then
            (acc.1.add_item (.node (Node.mk nb.name [] [])) (dispPath q), acc.2)
          else (acc.1, acc.2.add_item (.node (Node.mk nb.name [] [])) (dispPath q)))
          = (acc.1.add_item (.node (stubOf nb)) (dispPath q), acc.2)
        rw [if_pos (hkids nb hnb)]
        rfl)]
  rw [foldl_pair_fst (fun (S2 : FDT) nb => S2.add_item (.node (stubOf nb)) (dispPath q)) kids S A]
  rw [add_items_nodes hq kids S sr s hS hres]
  have hres1 : resolve (updAt
      (fun x => Node.mk x.name (x.nodes ++ kids.map stubOf) x.props) sr q) q =
      some (Node.mk s.name (s.nodes ++ kids.map stubOf) s.props) :=
    resolve_updAt hres rfl
  rw [List.foldl_ext
      (diff1PropStep (some (Node.mk nm kids props)) (dispPath q))
      (fun (acc : FDT × FDT) pa => (acc.1.add_item (.prop pa.copy) (dispPath q), acc.2))
      ({ S with root_node := some (updAt
          (fun x => Node.mk x.name (x.nodes ++ kids.map stubOf) x.props) sr q) }, A)
      (fun acc pa hpa => by
        show (match (Node.mk nm kids props).get_property pa.name with
          | some q2 =>
            if pa = q2 then (acc.1.add_item (.prop pa.copy) (dispPath q), acc.2)
            else (acc.1, acc.2.add_item (.prop pa.copy) (dispPath q))
          | none => (acc.1, acc.2.add_item (.prop pa.copy) (dispPath q)))
          = (acc.1.add_item (.prop pa.copy) (dispPath q), acc.2)
        rw [hprops pa hpa]
        show (if pa = pa then (acc.1.add_item (.prop pa.copy) (dispPath q), acc.2)
          else (acc.1, acc.2.add_item (.prop pa.copy) (dispPath q)))
          = (acc.1.add_item (.prop pa.copy) (dispPath q), acc.2)
        rw [if_pos rfl])]
  rw [foldl_pair_fst (fun (S2 : FDT) pa => S2.add_item (.prop pa.copy) (dispPath q)) props _ A]
  rw [add_items_props hq props _ _ _ rfl hres1]
  rw [updAt_comp hres rfl
      (fun x => Node.mk x.name x.nodes (x.props ++ props))
      (fun x => Node.mk x.name (x.nodes ++ kids.map stubOf) (x.props ++ props))
      (fun x => rfl)]

theorem NodeWF.kids_nodup {nm : Chars} {kids : List Node} {props : List PropItem}
    (h : NodeWF (Node.mk nm kids props)) : (kids.map Node.name).Nodup := by
  cases h with
  | mk _ _ _ h1 h2 h3 h4 => exact h1

theorem NodeWF.props_nodup {nm : Chars} {kids : List Node} {props : List PropItem}
    (h : NodeWF (Node.mk nm kids props)) : (props.map PropItem.name).Nodup := by
  cases h with
  | mk _ _ _ h1 h2 h3 h4 => exact h2

theorem NodeWF.kid_names {nm : Chars} {kids : List Node} {props : List PropItem}
    (h : NodeWF (Node.mk nm kids props)) : ∀ c ∈ kids, c.name ≠ [] ∧ '/' ∉ c.name := by
  cases h with
  | mk _ _ _ h1 h2 h3 h4 => exact h3

theorem NodeWF.kid_wf {nm : Chars} {kids : List Node} {props : List PropItem}
    (h : NodeWF (Node.mk nm kids props)) : ∀ c ∈ kids, NodeWF c := by
  cases h with
  | mk _ _ _ h1 h2 h3 h4 => exact h4

theorem updAt_cons_eq (f : Node → Node) (n : Node) (nm : Chars) (rest : List Chars) :
    updAt f n (nm :: rest) =
      (match n.get_subnode nm with
       | some c => n.setFirstChild nm (updAt f c rest)
       | none => n) := rfl

theorem updAt_single {n cc : Node} {nm : Chars} (h : n.get_subnode nm = some cc)
    (f : Node → Node) : updAt f n [nm] = n.setFirstChild nm (f cc) := by
  rw [updAt_cons_eq, h]
  rfl

theorem diff1_kidsRev {t : FDT} {r : Node} (ht : t.root_node = some r) (k : Nat)
    (ihB : ∀ (c : Node), Node.size c ≤ k →
      ∀ (q : List Chars) (pp : Chars) (S A : FDT) (sr : Node),
      wfNames q → NodeWF c → joinPath pp c.name = dispPath q →
      resolve r q = some c → S.root_node = some sr →
      resolve sr q = some (Node.mk c.name [] []) →
      List.foldl (diffStep1 t) (S, A) (visitSeq pp c) =
        ({ S with root_node := some (updAt (fun _ => c) sr q) }, A))
    {q : List Chars} (hq : wfNames q)
    {nm : Chars} {kids : List Node} {props : List PropItem}
    (hr : resolve r q = some (Node.mk nm kids props))
    (hnd : (kids.map Node.name).Nodup)
    (hwfn : ∀ c ∈ kids, wfName c.name)
    (hwfc : ∀ c ∈ kids, NodeWF c)
    (hsize : ∀ c ∈ kids, Node.size c ≤ k) :
    ∀ (cs pre : List Node), kids = pre ++ cs →
    ∀ (S A : FDT) (sr : Node), S.root_node = some sr →
    resolve sr q = some (Node.mk nm (pre.map stubOf ++ cs.map stubOf) props) →
    List.foldl (diffStep1 t) (S, A) (visitKidsRev (dispPath q) cs) =
      ({ S with root_node := some (updAt
          (fun _ => Node.mk nm (pre.map stubOf ++ cs) props) sr q) }, A) := by
  intro cs
  induction cs with
  | nil =>
    intro pre hpre S A sr hS hres
    rw [show visitKidsRev (dispPath q) [] = [] from rfl, List.foldl_nil]
    rw [updAt_self hres rfl, ← hS]
  | cons c cs2 ih =>
    intro pre hpre S A sr hS hres
    have hc_mem : c ∈ kids := by
      rw [hpre]; exact List.mem_append.mpr (Or.inr (List.mem_cons_self c cs2))
    have hnone : ∀ x ∈ pre.map stubOf, (x.name == c.name) = false := by
      intro x hx
      obtain ⟨p, hp, rfl⟩ := List.mem_map.mp hx
      rw [beq_eq_false_iff_ne]
      show p.name ≠ c.name
      intro he
      have hmapeq : kids.map Node.name = pre.map Node.name ++ c.name :: cs2.map Node.name := by
        rw [hpre]; simp
      have hnd2 := hnd
      rw [hmapeq] at hnd2
      have hdisj := (List.nodup_append.mp hnd2).2.2
      exact hdisj (List.mem_map_of_mem Node.name hp) (by rw [he]; exact List.mem_cons_self _ _)
    have hL : (pre ++ [c]).map stubOf ++ cs2 = pre.map stubOf ++ stubOf c :: cs2 := by simp
    have hfind : (Node.mk nm ((pre ++ [c]).map stubOf ++ cs2) props).get_subnode c.name =
        some (stubOf c) := by
      show ((pre ++ [c]).map stubOf ++ cs2).find? (fun y => y.name == c.name) = some (stubOf c)
      rw [hL, find?_append_right (find?_none_of_names hnone)]
      exact find?_cons_pos _ (stubOf c) cs2 (by simp [stubOf, Node.name])
    rw [show visitKidsRev (dispPath q) (c :: cs2) =
        visitKidsRev (dispPath q) cs2 ++ visitSeq (dispPath q) c from rfl]
    rw [List.foldl_append]
    have hres2 : resolve sr q =
        some (Node.mk nm ((pre ++ [c]).map stubOf ++ cs2.map stubOf) props) := by
      have hL2 : (pre ++ [c]).map stubOf ++ cs2.map stubOf =
          pre.map stubOf ++ stubOf c :: cs2.map stubOf := by simp
      rw [hL2]
      exact hres
    rw [ih (pre ++ [c]) (by rw [hpre, List.append_assoc, List.singleton_append]) S A sr hS hres2]
    have hres3 : resolve (updAt
        (fun _ => Node.mk nm ((pre ++ [c]).map stubOf ++ cs2) props) sr q) q =
        some (Node.mk nm ((pre ++ [c]).map stubOf ++ cs2) props) :=
      resolve_updAt hres2 rfl
    have hrc : resolve r (q ++ [c.name]) = some c := by
      rw [resolve_append q [c.name] r, hr]
      show resolve (Node.mk nm kids props) [c.name] = some c
      rw [show resolve (Node.mk nm kids props) [c.name] =
          (match (Node.mk nm kids props).get_subnode c.name with
           | some c2 => resolve c2 []
           | none => none) from rfl]
      rw [show (Node.mk nm kids props).get_subnode c.name = some c from
        find?_node_self hnd hc_mem]
      rfl
    have hrsc : resolve (updAt
        (fun _ => Node.mk nm ((pre ++ [c]).map stubOf ++ cs2) props) sr q)
        (q ++ [c.name]) = some (Node.mk c.name [] []) := by
      rw [resolve_append q [c.name] _, hres3]
      show resolve (Node.mk nm ((pre ++ [c]).map stubOf ++ cs2) props) [c.name] =
        some (Node.mk c.name [] [])
      rw [show resolve (Node.mk nm ((pre ++ [c]).map stubOf ++ cs2) props) [c.name] =
          (match (Node.mk nm ((pre ++ [c]).map stubOf ++ cs2) props).get_subnode c.name with
           | some c2 => resolve c2 []
           | none => none) from rfl]
      rw [hfind]
      rfl
    have hq2 : wfNames (q ++ [c.name]) := by
      intro x hx
      rcases List.mem_append.mp hx with h1 | h1
      · exact hq x h1
      · rw [List.mem_singleton.mp h1]; exact hwfn c hc_mem
    have hpp2 : joinPath (dispPath q) c.name = dispPath (q ++ [c.name]) :=
      (joinPath_disp hq (hwfn c hc_mem)).trans (dispPath_ne_nil (by simp)).symm
    rw [ihB c (hsize c hc_mem) (q ++ [c.name]) (dispPath q)
        { S with root_node := some (updAt
            (fun _ => Node.mk nm ((pre ++ [c]).map stubOf ++ cs2) props) sr q) } A
        (updAt (fun _ => Node.mk nm ((pre ++ [c]).map stubOf ++ cs2) props) sr q)
        hq2 (hwfc c hc_mem) hpp2 hrc rfl hrsc]
    rw [updAt_append q [c.name] (fun _ => c)
        (updAt (fun _ => Node.mk nm ((pre ++ [c]).map stubOf ++ cs2) props) sr q)]
    rw [updAt_comp hres2 rfl
        (fun x => updAt (fun _ => c) x [c.name])
        (fun _ => Node.mk nm (pre.map stubOf ++ c :: cs2) props)
        (fun x => by
          show updAt (fun _ => c)
              (Node.mk nm ((pre ++ [c]).map stubOf ++ cs2) props) [c.name] =
            Node.mk nm (pre.map stubOf ++ c :: cs2) props
          rw [updAt_single hfind (fun _ => c)]
          show Node.mk nm
              (replaceFirstNode c.name c ((pre ++ [c]).map stubOf ++ cs2)) props =
            Node.mk nm (pre.map stubOf ++ c :: cs2) props
          rw [hL, replaceFirstNode_append_left hnone]
          rw [replaceFirstNode_cons_pos c cs2 (by simp [stubOf, Node.name])])]

theorem diff1_build {t : FDT} {r : Node} (ht : t.root_node = some r) :
    ∀ (k : Nat) (c : Node), Node.size c ≤ k →
    ∀ (q : List Chars) (pp : Chars) (S A : FDT) (sr : Node),
    wfNames q → NodeWF c → joinPath pp c.name = dispPath q →
    resolve r q = some c → S.root_node = some sr →
    resolve sr q = some (Node.mk c.name [] []) →
    List.foldl (diffStep1 t) (S, A) (visitSeq pp c) =
      ({ S with root_node := some (updAt (fun _ => c) sr q) }, A) := by
  intro k
  induction k with
  | zero =>
    intro c hc
    exact absurd (Nat.le_trans (size_pos c) hc) (by simp)
  | succ k ihk =>
    intro c hc q pp S A sr hq hwf hpp hr hS hres
    cases c with
    | mk nm kids props =>
    replace hpp : joinPath pp nm = dispPath q := hpp
    replace hres : resolve sr q = some (Node.mk nm [] []) := hres
    rw [show visitSeq pp (Node.mk nm kids props) =
        (joinPath pp nm, Node.mk nm kids props) ::
          visitKidsRev (joinPath pp nm) kids from rfl]
    rw [hpp, List.foldl_cons]
    rw [diff1_step ht hq hr (NodeWF.kids_nodup hwf) (NodeWF.props_nodup hwf) hS hres]
    have hres1 : resolve (updAt
        (fun x => Node.mk x.name (x.nodes ++ kids.map stubOf) (x.props ++ props)) sr q) q =
        some (Node.mk nm (List.map stubOf [] ++ kids.map stubOf) props) :=
      resolve_updAt hres rfl
    have hsize : ∀ x ∈ kids, Node.size x ≤ k := by
      intro x hx
      have h1 : Node.size x ≤ Node.sizeList kids := size_le_sizeList hx
      have h2 : Node.size (Node.mk nm kids props) = 1 + Node.sizeList kids := rfl
      rw [h2] at hc
      omega
    rw [diff1_kidsRev ht k ihk hq hr (NodeWF.kids_nodup hwf)
        (fun x hx => NodeWF.kid_names hwf x hx) (NodeWF.kid_wf hwf) hsize kids [] rfl
        { S with root_node := some (updAt
            (fun x => Node.mk x.name (x.nodes ++ kids.map stubOf) (x.props ++ props)) sr q) }
        A
        (updAt (fun x => Node.mk x.name (x.nodes ++ kids.map stubOf) (x.props ++ props)) sr q)
        rfl hres1]
    rw [updAt_comp hres rfl
        (fun _ => Node.mk nm (List.map stubOf [] ++ kids) props)
        (fun _ => Node.mk nm kids props)
        (fun x => rfl)]

theorem diff2_step_id {Sfin : FDT} {rS : Node} (hT : Sfin.root_node = some rS)
    {q : List Chars} (hq : wfNames q)
    {nm : Chars} {kids : List Node} {props : List PropItem}
    (hr : resolve rS q = some (Node.mk nm kids props))
    (hnd_k : (kids.map Node.name).Nodup)
    (hnd_p : (props.map PropItem.name).Nodup)
    (B : FDT) :
    diffStep2 Sfin B (dispPath q, Node.mk nm kids props) = B := by
  have hkids : ∀ nb ∈ kids, ((Node.mk nm kids props).get_subnode nb.name).isSome = true := by
    intro nb hnb
    show (kids.find? (fun y => y.name == nb.name)).isSome = true
    rw [find?_node_self hnd_k hnb]
    rfl
  have hprops : ∀ pa ∈ props, (Node.mk nm kids props).get_property pa.name = some pa := by
    intro pa hpa
    show props.find? (fun p => p.name == pa.name) = some pa
    exact find?_prop_self hnd_p hpa
  show List.foldl (diff2PropStep (fdtGetOpt Sfin (dispPath q)) (dispPath q))
      (List.foldl (diff2KidStep (fdtGetOpt Sfin (dispPath q)) (dispPath q)) B kids) props = B
  rw [fdtGetOpt_disp hT hq, hr]
  rw [List.foldl_ext (diff2KidStep (some (Node.mk nm kids props)) (dispPath q))
      (fun (acc : FDT) (_ : Node) => acc) B
      (fun acc nb hnb => by
        show (if ((Node.mk nm kids props).get_subnode nb.name).isSome = true then acc
          else acc.add_item (.node (Node.mk nb.name [] [])) (dispPath q)) = acc
        rw [if_pos (hkids nb hnb)])]
  rw [foldl_const_id]
  rw [List.foldl_ext (diff2PropStep (some (Node.mk nm kids props)) (dispPath q))
      (fun (acc : FDT) (_ : PropItem) => acc) B
      (fun acc pa hpa => by
        show (match (Node.mk nm kids props).get_property pa.name with
          | some q2 => if pa ≠ q2 then acc.add_item (.prop pa.copy) (dispPath q) else acc
          | none => acc.add_item (.prop pa.copy) (dispPath q)) = acc
        rw [hprops pa hpa]
        show (if pa ≠ pa then acc.add_item (.prop pa.copy) (dispPath q) else acc) = acc
        rw [if_neg (by simp)])]
  rw [foldl_const_id]

theorem diff2_kidsRev {Sfin : FDT} {rS : Node} (hT : Sfin.root_node = some rS) (k : Nat)
    (ihB : ∀ (c : Node), Node.size c ≤ k →
      ∀ (q : List Chars) (pp : Chars) (B : FDT),
      wfNames q → NodeWF c → joinPath pp c.name = dispPath q →
      resolve rS q = some c →
      List.foldl (diffStep2 Sfin) B (visitSeq pp c) = B)
    {q : List Chars} (hq : wfNames q)
    {nm : Chars} {kids : List Node} {props : List PropItem}
    (hr : resolve rS q = some (Node.mk nm kids props))
    (hnd : (kids.map Node.name).Nodup)
    (hwfn : ∀ c ∈ kids, wfName c.name)
    (hwfc : ∀ c ∈ kids, NodeWF c)
    (hsize : ∀ c ∈ kids, Node.size c ≤ k) :
    ∀ (cs : List Node), (∀ x ∈ cs, x ∈ kids) → ∀ (B : FDT),
    List.foldl (diffStep2 Sfin) B (visitKidsRev (dispPath q) cs) = B := by
  intro cs
  induction cs with
  | nil => intro _ B; rfl
  | cons c cs2 ih =>
    intro hsub B
    have hc_mem : c ∈ kids := hsub c (List.mem_cons_self c cs2)
    rw [show visitKidsRev (dispPath q) (c :: cs2) =
        visitKidsRev (dispPath q) cs2 ++ visitSeq (dispPath q) c from rfl]
    rw [List.foldl_append]
    rw [ih (fun x hx => hsub x (List.mem_cons_of_mem c hx)) B]
    have hrc : resolve rS (q ++ [c.name]) = some c := by
      rw [resolve_append q [c.name] rS, hr]
      show resolve (Node.mk nm kids props) [c.name] = some c
      rw [show resolve (Node.mk nm kids props) [c.name] =
          (match (Node.mk nm kids props).get_subnode c.name with
           | some c2 => resolve c2 []
           | none => none) from rfl]
      rw [show (Node.mk nm kids props).get_subnode c.name = some c from
        find?_node_self hnd hc_mem]
      rfl
    have hq2 : wfNames (q ++ [c.name]) := by
      intro x hx
      rcases List.mem_append.mp hx with h1 | h1
      · exact hq x h1
      · rw [List.mem_singleton.mp h1]; exact hwfn c hc_mem
    have hpp2 : joinPath (dispPath q) c.name = dispPath (q ++ [c.name]) :=
      (joinPath_disp hq (hwfn c hc_mem)).trans (dispPath_ne_nil (by simp)).symm
    exact ihB c (hsize c hc_mem) (q ++ [c.name]) (dispPath q) B hq2 (hwfc c hc_mem) hpp2 hrc

theorem diff2_visit_id {Sfin : FDT} {rS : Node} (hT : Sfin.root_node = some rS) :
    ∀ (k : Nat) (c : Node), Node.size c ≤ k →
    ∀ (q : List Chars) (pp : Chars) (B : FDT),
    wfNames q → NodeWF c → joinPath pp c.name = dispPath q →
    resolve rS q = some c →
    List.foldl (diffStep2 Sfin) B (visitSeq pp c) = B := by
  intro k
  induction k with
  | zero =>
    intro c hc
    exact absurd (Nat.le_trans (size_pos c) hc) (by simp)
  | succ k ihk =>
    intro c hc q pp B hq hwf hpp hr
    cases c with
    | mk nm kids props =>
    replace hpp : joinPath pp nm = dispPath q := hpp
    rw [show visitSeq pp (Node.mk nm kids props) =
        (joinPath pp nm, Node.mk nm kids props) ::
          visitKidsRev (joinPath pp nm) kids from rfl]
    rw [hpp, List.foldl_cons]
    rw [diff2_step_id hT hq hr (NodeWF.kids_nodup hwf) (NodeWF.props_nodup hwf) B]
    have hsize : ∀ x ∈ kids, Node.size x ≤ k := by
      intro x hx
      have h1 : Node.size x ≤ Node.sizeList kids := size_le_sizeList hx
      have h2 : Node.size (Node.mk nm kids props) = 1 + Node.sizeList kids := rfl
      rw [h2] at hc
      omega
    exact diff2_kidsRev hT k ihk hq hr (NodeWF.kids_nodup hwf)
      (fun x hx => NodeWF.kid_names hwf x hx) (NodeWF.kid_wf hwf) hsize kids
      (fun x hx => hx) B

theorem diffSameEntries_self (es : List Entry) : diffSameEntries es es = es := by
  cases es with
  | nil => rfl
  | cons e es2 =>
    unfold diffSameEntries
    rw [if_pos ⟨List.cons_ne_nil e es2, List.cons_ne_nil e es2⟩]
    rw [List.filter_eq_self.mpr]
    intro a ha
    rw [List.any_eq_true]
    exact ⟨a, ha, by simp⟩

theorem diffOnlyEntries_self (es : List Entry) : diffOnlyEntries es es = [] := by
  unfold diffOnlyEntries
  rw [List.filter_eq_nil_iff.mpr]
  intro a ha
  simp only [Bool.not_eq_true', Bool.not_eq_false]
  rw [List.any_eq_true]
  exact ⟨a, ha, by simp⟩

/-- C4 (corrected): for every tree T whose root node is named "/" and is
well-formed (within every node the child names are pairwise distinct, the
property names are pairwise distinct, and every child name is non-empty and
slash-free), diff(T, T) returns a triple (same, only_a, only_b) where same
carries T's reservation entries and exactly T's root node - structurally
equal to T up to the choice of header - and only_a and only_b are empty
trees: a bare root named "/", no properties and no reservations.  Without
the well-formedness hypothesis the claim fails (see the counterexample with
duplicate sibling names). -/
theorem C4_diff_self (t : FDT) (r : Node) (ht : t.root_node = some r)
    (hname : r.name = ['/']) (hwf : NodeWF r) :
    diff t t = Except.ok
      ({ header := diffSameHeader t.header t.header, entries := t.entries,
         root_node := some r },
       { header := t.header, entries := [],
         root_node := some (Node.mk ['/'] [] []) },
       { header := t.header, entries := [],
         root_node := some (Node.mk ['/'] [] []) }) := by
  have hq0 : wfNames ([] : List Chars) := fun x hx => absurd hx (List.not_mem_nil x)
  have hpp0 : joinPath [] r.name = dispPath [] := by
    rw [hname]; exact joinPath_root_slash
  have hV : t.walkPairs = Except.ok (visitSeq [] r) := by
    unfold FDT.walkPairs
    rw [ht]
    show Except.ok (walkFuel (Node.size r) [] r []) = Except.ok (visitSeq [] r)
    rw [walkFuel_eq (Node.size r) [] r [] (Nat.le_refl (Node.size r))]
    rw [show stackVisits ([] : List (Chars × Node)) = [] from rfl, List.append_nil]
  unfold diff
  rw [hV]
  show Except.ok
      ((List.foldl (diffStep1 t)
          ({ header := diffSameHeader t.header t.header,
             entries := diffSameEntries t.entries t.entries },
           { header := t.header,
             entries := diffOnlyEntries t.entries (diffSameEntries t.entries t.entries) })
          (visitSeq [] r)).1,
       (List.foldl (diffStep1 t)
          ({ header := diffSameHeader t.header t.header,
             entries := diffSameEntries t.entries t.entries },
           { header := t.header,
             entries := diffOnlyEntries t.entries (diffSameEntries t.entries t.entries) })
          (visitSeq [] r)).2,
       List.foldl
         (diffStep2 (List.foldl (diffStep1 t)
            ({ header := diffSameHeader t.header t.header,
               entries := diffSameEntries t.entries t.entries },
             { header := t.header,
               entries := diffOnlyEntries t.entries (diffSameEntries t.entries t.entries) })
            (visitSeq [] r)).1)
         { header := t.header,
           entries := diffOnlyEntries t.entries (diffSameEntries t.entries t.entries) }
         (visitSeq [] r))
    = Except.ok
      ({ header := diffSameHeader t.header t.header, entries := t.entries,
         root_node := some r },
       { header := t.header, entries := [],
         root_node := some (Node.mk ['/'] [] []) },
       { header := t.header, entries := [],
         root_node := some (Node.mk ['/'] [] []) })
  rw [diffSameEntries_self, diffOnlyEntries_self]
  rw [diff1_build ht (Node.size r) r (Nat.le_refl (Node.size r)) [] []
      { header := diffSameHeader t.header t.header, entries := t.entries }
      { header := t.header, entries := [] }
      (Node.mk ['/'] [] [])
      hq0 hwf hpp0 rfl rfl (by rw [hname]; rfl)]
  show Except.ok
      (({ header := diffSameHeader t.header t.header, entries := t.entries, root_node := some r } : FDT),
       ({ header := t.header, entries := [] } : FDT),
       List.foldl (diffStep2 ({ header := diffSameHeader t.header t.header, entries := t.entries, root_node := some r } : FDT)) ({ header := t.header, entries := [] } : FDT) (visitSeq [] r))
    = Except.ok
      ({ header := diffSameHeader t.header t.header, entries := t.entries,
         root_node := some r },
       { header := t.header, entries := [],
         root_node := some (Node.mk ['/'] [] []) },
       { header := t.header, entries := [],
         root_node := some (Node.mk ['/'] [] []) })
  rw [diff2_visit_id
      (show ({ header := diffSameHeader t.header t.header, entries := t.entries, root_node := some r } : FDT).root_node = some r from rfl)
      (Node.size r) r (Nat.le_refl (Node.size r)) [] []
      ({ header := t.header, entries := [] } : FDT) hq0 hwf hpp0 rfl]

/-- Witness for C4: the corrected diff(T, T) theorem applied to a concrete
tree with one reservation entry and a bare root. -/
theorem C4_diff_self_witness :
    diff ({ entries := [⟨4096, 16⟩] } : FDT) ({ entries := [⟨4096, 16⟩] } : FDT) =
      Except.ok
        (({ entries := [⟨4096, 16⟩] } : FDT),
         ({ entries := [] } : FDT),
         ({ entries := [] } : FDT)) :=
  C4_diff_self { entries := [⟨4096, 16⟩] } (Node.mk ['/'] [] []) rfl rfl
    (NodeWF.mk ['/'] [] [] (by simp) (by simp) (by simp) (by simp))

end PyFDT
